import Mathlib

set_option maxHeartbeats 1000000
set_option linter.unusedVariables false

/-!
Verification of the slow-query scraper against its specification.

The development shallowly embeds the parts of the program that the
specification talks about:

* the query normalizer
  (`RDSCloudWatchSlowQueryCollector._normalize_query`,
  src/collectors/cloudwatch_slowquery_collector.py),
* the per-instance slow-query lifecycle tracker
  (`SlowQueryMonitor.process_query_result` /
  `SlowQueryMonitor.handle_finished_queries`,
  src/collectors/my_process_scraper.py),
* the log-digest aggregation and its persistence
  (`_analyze_slow_queries` / `_save_metrics`,
  src/collectors/cloudwatch_slowquery_collector.py),
* the per-stream log fetch loop (`process_stream` /
  `_get_slow_query_logs`, same file),
* the monthly-statistics persistence
  (`SQLStatisticsCalculator.calculate_monthly_statistics`,
  src/modules/sql_statistics.py).

Python strings are modelled as lists of characters (ASCII reading of
the character classes used by the regexes), machine timestamps as
integers (whole seconds / milliseconds as in the source), and floats
as rationals.  Mongo collections are modelled as lists of documents;
an `update_one`/`insert_one` call updates or appends the first match.
-/

namespace SlowQueryScraper

/-! ## Query normalizer

Embedding of `_normalize_query` (cloudwatch_slowquery_collector.py,
lines 270-291).  The Python code applies, in order:

1. `re.sub(r"'[^']*'", "?", query)`
2. `re.sub(r'"[^"]*"', "?", query)`
3. `re.sub(r'\b\d+\b', "?", query)`
4. `" ".join(query.split())`

`'[^']*'` matches from a quote to the next quote, so `re.sub` pairs
the quotes of the string from the left and replaces each pair together
with its content by `?`; a final unpaired quote is left alone.
`\b\d+\b` replaces exactly the maximal digit runs whose two neighbours
(or string ends) are non-word characters.  `" ".join(s.split())`
collapses every whitespace run to one space and trims both ends.
Character classes (`\d`, `\w`, `str.split` whitespace) are taken in
their ASCII reading.
-/

def squoteChar : Char := Char.ofNat 39

def dquoteChar : Char := Char.ofNat 34

def qmChar : Char := '?'

/-- ASCII whitespace as recognised by Python `str.split()`. -/
def isWsChar (c : Char) : Bool :=
  c = ' ' || c = '\t' || c = '\n' || c = '\r' || c = Char.ofNat 11 || c = Char.ofNat 12

/-- Python regex `\w` (ASCII reading): letters, digits, underscore. -/
def isWordChar (c : Char) : Bool :=
  c.isAlpha || c.isDigit || c = '_'

/-- Suffix strictly after the first occurrence of `q`, if any. -/
def afterClose (q : Char) : List Char → Option (List Char)
  | [] => none
  | c :: cs => if c = q then some cs else afterClose q cs

/-- `re.sub(q[^q]*q, "?", ·)`: pair quotes from the left, replace each
pair and its content by `?`; a quote with no closing quote is kept. -/
def subQuote (q : Char) : List Char → List Char
  | [] => []
  | c :: cs =>
    if c = q then
      match h : afterClose q cs with
      | some rest => qmChar :: subQuote q rest
      | none => c :: cs
    else c :: subQuote q cs
termination_by l => l.length
decreasing_by
  · have hlt : ∀ (m r : List Char), afterClose q m = some r → r.length < m.length := by
      intro m
      induction m with
      | nil => intro r hmr; simp [afterClose] at hmr
      | cons c0 cs0 ih =>
        intro r hmr
        by_cases hc0 : c0 = q
        · simp [afterClose, hc0] at hmr
          subst hmr
          simp
        · simp [afterClose, hc0] at hmr
          exact Nat.lt_trans (ih r hmr) (by simp)
    exact Nat.lt_trans (hlt cs rest h) (by simp)
  · simp

/-- `re.sub(\b\d+\b, "?", ·)`: replace each maximal digit run whose
neighbours (or the string ends) are non-word characters by `?`.
`pv` records whether the character just before the current position is
a word character (`false` at the start of the string). -/
def subNumAux (pv : Bool) : List Char → List Char
  | [] => []
  | c :: cs =>
    if hc : c.isDigit then
      if pv then
        (c :: cs).takeWhile Char.isDigit ++
          subNumAux true ((c :: cs).dropWhile Char.isDigit)
      else
        match hr : (c :: cs).dropWhile Char.isDigit with
        | [] => [qmChar]
        | d :: ds =>
          if isWordChar d then
            (c :: cs).takeWhile Char.isDigit ++ subNumAux true (d :: ds)
          else
            qmChar :: subNumAux false (d :: ds)
    else c :: subNumAux (isWordChar c) cs
termination_by l => l.length
decreasing_by
  · have h1 : ((c :: cs).dropWhile Char.isDigit).length ≤ cs.length := by
      simp [List.dropWhile_cons, hc]
      exact (List.dropWhile_sublist _).length_le
    simp only [List.length_cons]
    omega
  · have h1 : ((c :: cs).dropWhile Char.isDigit).length ≤ cs.length := by
      simp [List.dropWhile_cons, hc]
      exact (List.dropWhile_sublist _).length_le
    rw [hr] at h1
    simp only [List.length_cons] at h1 ⊢
    omega
  · have h1 : ((c :: cs).dropWhile Char.isDigit).length ≤ cs.length := by
      simp [List.dropWhile_cons, hc]
      exact (List.dropWhile_sublist _).length_le
    rw [hr] at h1
    simp only [List.length_cons] at h1 ⊢
    omega
  · simp

def subNum (l : List Char) : List Char := subNumAux false l

/-- `" ".join(s.split())` on a list already stripped of leading
whitespace: each whitespace run becomes one space, a trailing run is
dropped. -/
def collapseAux : List Char → List Char
  | [] => []
  | c :: cs =>
    if hw : isWsChar c then
      match hr : cs.dropWhile isWsChar with
      | [] => []
      | d :: ds => ' ' :: collapseAux (d :: ds)
    else c :: collapseAux cs
termination_by l => l.length
decreasing_by
  · have h1 : (cs.dropWhile isWsChar).length ≤ cs.length :=
      (List.dropWhile_sublist _).length_le
    rw [hr] at h1
    simp only [List.length_cons] at h1 ⊢
    omega
  · simp

/-- `" ".join(s.split())`. -/
def collapse (l : List Char) : List Char :=
  collapseAux (l.dropWhile isWsChar)

/-- `_normalize_query` on a character list: quoted-literal passes,
numeric-literal pass, whitespace collapse, in the source's order. -/
def normalizeQuery (l : List Char) : List Char :=
  collapse (subNum (subQuote dquoteChar (subQuote squoteChar l)))

/-- `RDSCloudWatchSlowQueryCollector._normalize_query`. -/
def normalize (s : String) : String :=
  ⟨normalizeQuery s.data⟩

/-- `numFixed pv l` mirrors the recursion of `subNumAux` and states
that the numeric pass leaves `l` unchanged (given that the character
before `l` is a word character iff `pv`): every maximal digit run of
`l` has a word character next to it. -/
def numFixed (pv : Bool) : List Char → Bool
  | [] => true
  | c :: cs =>
    if hc : c.isDigit then
      if pv then numFixed true ((c :: cs).dropWhile Char.isDigit)
      else
        match hr : (c :: cs).dropWhile Char.isDigit with
        | [] => false
        | d :: ds => isWordChar d && numFixed true (d :: ds)
    else numFixed (isWordChar c) cs
termination_by l => l.length
decreasing_by
  · have h1 : ((c :: cs).dropWhile Char.isDigit).length ≤ cs.length := by
      simp [List.dropWhile_cons, hc]
      exact (List.dropWhile_sublist _).length_le
    simp only [List.length_cons]
    omega
  · have h1 : ((c :: cs).dropWhile Char.isDigit).length ≤ cs.length := by
      simp [List.dropWhile_cons, hc]
      exact (List.dropWhile_sublist _).length_le
    rw [hr] at h1
    simp only [List.length_cons] at h1 ⊢
    omega
  · simp

/-! ## Realtime slow-query lifecycle tracker

Embedding of `SlowQueryMonitor` (src/collectors/my_process_scraper.py).
Timestamps are integers (epoch seconds: the source truncates the
computed start timestamp with `int(...)`, which is exact at
whole-second granularity); `TIME` values from the process list are
integer seconds.  The per-pid cache `pid_time_cache` is an
insertion-ordered association list, like a Python dict.  The Mongo
collection of finalized documents is a list of documents. -/

/-- One row of the `performance_schema.processlist` query result. -/
structure ProcessRow where
  pid : Int
  db : String
  user : String
  host : String
  time : Int
  info : List Char
deriving DecidableEq, Repr

/-- The `QueryDetails` dataclass; `instance_` and `end_` stand for the
source's `instance` and `end` fields (Lean keywords). -/
structure QueryDetails where
  instance_ : String
  db : String
  pid : Int
  user : String
  host : String
  time : Int
  sql_text : List Char
  start : Int
  end_ : Option Int
deriving DecidableEq, Repr

/-- One `pid_time_cache` entry: `{'max_time': …, 'start': …,
'details': …}`.  The source creates the entry with `setdefault(pid,
{'max_time': 0})` and always sets `start` and `details` in the same
call, so all three fields are present whenever the entry exists. -/
structure CacheEntry where
  max_time : Int
  start : Int
  details : QueryDetails
deriving DecidableEq, Repr

/-- The settings the monitor reads: `EXEC_TIME` and the instance name. -/
structure ScraperConfig where
  exec_time : Int
  instance_name : String
deriving DecidableEq, Repr

/-- Python dict lookup on the association-list cache. -/
def cacheLookup (cache : List (Int × CacheEntry)) (pid : Int) : Option CacheEntry :=
  (cache.find? (fun e => e.1 == pid)).map Prod.snd

/-- Python dict store: update in place if present, append otherwise. -/
def cacheUpdate (pid : Int) (entry : CacheEntry) :
    List (Int × CacheEntry) → List (Int × CacheEntry)
  | [] => [(pid, entry)]
  | (p, e) :: rest =>
    if p == pid then (p, entry) :: rest else (p, e) :: cacheUpdate pid entry rest

/-- `re.sub(' +', ' ', ·)`: collapse space runs to one space. -/
def squeezeSpaces : List Char → List Char
  | [] => []
  | [c] => [c]
  | c :: c2 :: cs =>
    if c = ' ' && c2 = ' ' then squeezeSpaces (c2 :: cs)
    else c :: squeezeSpaces (c2 :: cs)

def isNlTabCr (c : Char) : Bool :=
  c = '\n' || c = '\t' || c = '\r'

/-- `re.sub(r'[\n\t\r]+', ' ', ·)`: each run of newlines, tabs and
carriage returns becomes one space. -/
def squeezeNlTabCr : List Char → List Char
  | [] => []
  | [c] => if isNlTabCr c then [' '] else [c]
  | c :: c2 :: cs =>
    if isNlTabCr c then
      if isNlTabCr c2 then squeezeNlTabCr (c2 :: cs)
      else ' ' :: squeezeNlTabCr (c2 :: cs)
    else c :: squeezeNlTabCr (c2 :: cs)

/-- Python `str.strip()`. -/
def stripChars (l : List Char) : List Char :=
  ((l.dropWhile isWsChar).reverse.dropWhile isWsChar).reverse

/-- The `INFO` cleaning in `process_query_result` (lines 129-130); the
`encode('utf-8', 'ignore').decode('utf-8')` round-trip is the identity
on well-formed strings. -/
def cleanInfo (l : List Char) : List Char :=
  stripChars (squeezeNlTabCr (squeezeSpaces l))

/-- `SlowQueryMonitor.process_query_result` (lines 110-148) acting on
the pair (current_pids, pid_time_cache).  `now` is the sampling
instant `datetime.now(pytz.utc)` in epoch seconds. -/
def process_query_result (cfg : ScraperConfig) (now : Int) (row : ProcessRow)
    (acc : List Int × List (Int × CacheEntry)) :
    List Int × List (Int × CacheEntry) :=
  let current_pids := if row.pid ∈ acc.1 then acc.1 else acc.1 ++ [row.pid]
  if cfg.exec_time ≤ row.time then
    let prev := cacheLookup acc.2 row.pid
    -- `cache_data['max_time'] = max(cache_data['max_time'], time_value)`
    -- starting from `{'max_time': 0}` if the pid is new, and
    -- `cache_data['start']` set only when absent, i.e. only on creation:
    -- `int((now - timedelta(seconds=EXEC_TIME)).timestamp())`.
    let max_time := match prev with
      | some e => max e.max_time row.time
      | none => max 0 row.time
    let start := match prev with
      | some e => e.start
      | none => now - cfg.exec_time
    let details : QueryDetails :=
      { instance_ := cfg.instance_name
        db := row.db
        pid := row.pid
        user := row.user
        host := row.host
        time := row.time
        sql_text := cleanInfo row.info
        start := start
        end_ := none }
    (current_pids, cacheUpdate row.pid ⟨max_time, start, details⟩ acc.2)
  else (current_pids, acc.2)

/-- `data_to_insert`: `vars(details)` with `time` overwritten by the
cached `max_time` and `end` set to the current instant. -/
def finalizeDoc (e : CacheEntry) (now : Int) : QueryDetails :=
  { e.details with time := e.max_time, end_ := some now }

/-- The `find_one` filter in `handle_finished_queries` (lines
164-169): equality on exactly `pid`, `instance`, `db`, `start`. -/
def sameNaturalKey (d q : QueryDetails) : Bool :=
  d.pid == q.pid && d.instance_ == q.instance_ && d.db == q.db && d.start == q.start

/-- The guarded insert of `handle_finished_queries`: insert only if no
stored document matches the natural key. -/
def insertIfNewKey (store : List QueryDetails) (doc : QueryDetails) :
    List QueryDetails :=
  if store.any (fun d => sameNaturalKey d doc) then store else store ++ [doc]

/-- `SlowQueryMonitor.handle_finished_queries` (lines 150-180): every
cached pid missing from `current_pids` is finalized — its document is
inserted unless the natural key already exists — and removed from the
cache.  Returns the new cache and the new collection contents. -/
def handle_finished_queries (now : Int) (current_pids : List Int) :
    List (Int × CacheEntry) → List QueryDetails →
      List (Int × CacheEntry) × List QueryDetails
  | [], store => ([], store)
  | (p, e) :: rest, store =>
    if p ∈ current_pids then
      let r := handle_finished_queries now current_pids rest store
      ((p, e) :: r.1, r.2)
    else
      handle_finished_queries now current_pids rest
        (insertIfNewKey store (finalizeDoc e now))

/-- One iteration of `query_mysql_instance` (lines 82-108): process
every returned row, then handle the finished queries. -/
def query_cycle (cfg : ScraperConfig) (now : Int) (rows : List ProcessRow)
    (cache : List (Int × CacheEntry)) (store : List QueryDetails) :
    List (Int × CacheEntry) × List QueryDetails :=
  let r := rows.foldl (fun acc row => process_query_result cfg now row acc) ([], cache)
  handle_finished_queries now r.1 r.2 store

/-! ## Log-digest aggregation

Embedding of `RDSCloudWatchSlowQueryCollector._analyze_slow_queries`
(cloudwatch_slowquery_collector.py, lines 191-268) over already-parsed
events (one `match.groupdict()` per event; events whose message does
not match the grammar are dropped before this step).  `Query_time` and
`Lock_time` are floats, modelled as rationals.  Python `set` objects
(`example_queries`, `users`, `hosts`) are unordered; their `list(...)`
iteration order is hash-dependent and in particular **not** insertion
order.  The embedding represents such a set canonically as a
lexicographically sorted duplicate-free list. -/

/-- One parsed slow-log event (the named groups of `_query_pattern`). -/
structure SlowLogEvent where
  user : List Char
  host : List Char
  query_time : ℚ
  lock_time : ℚ
  rows_sent : Nat
  rows_examined : Nat
  timestamp : Int
  query : List Char
deriving DecidableEq, Repr

/-- Python `str.lower()` (ASCII reading). -/
def lowerStr (l : List Char) : List Char := l.map Char.toLower

def startsWithStr : List Char → List Char → Bool
  | [], _ => true
  | _ :: _, [] => false
  | a :: as, b :: bs => a == b && startsWithStr as bs

/-- Python `sub in s` substring containment. -/
def containsSub (s sub : List Char) : Bool :=
  match s with
  | [] => sub.isEmpty
  | _ :: rest => startsWithStr sub s || containsSub rest sub

/-- `excluded_users = {'rdsadmin', 'event_scheduler'}` and the test
`any(user in data['user'].lower() for user in excluded_users)`. -/
def isExcludedUser (user : List Char) : Bool :=
  containsSub (lowerStr user) "rdsadmin".data ||
    containsSub (lowerStr user) "event_scheduler".data

/-- Lexicographic order on character lists (a canonical total order
used to enumerate the unordered Python sets). -/
def charListLe : List Char → List Char → Bool
  | [], _ => true
  | _ :: _, [] => false
  | a :: as, b :: bs => if a < b then true else if b < a then false else charListLe as bs

def insertSorted (x : List Char) : List (List Char) → List (List Char)
  | [] => [x]
  | y :: ys => if charListLe x y then x :: y :: ys else y :: insertSorted x ys

/-- `set.add`: no-op on a member, otherwise insert into the canonical
sorted enumeration of the set. -/
def setInsert (x : List Char) (l : List (List Char)) : List (List Char) :=
  if x ∈ l then l else insertSorted x l

/-- Lines 234-235: `if len(stats['example_queries']) < 10:
stats['example_queries'].add(data['query'].strip())`. -/
def addExample (ex : List (List Char)) (q : List Char) : List (List Char) :=
  if ex.length < 10 then setInsert (stripChars q) ex else ex

/-- The accumulator value `query_stats[normalized_query]`. -/
structure QueryStats where
  digest_query : List Char
  example_queries : List (List Char)
  execution_count : Nat
  total_time : ℚ
  lock_time : ℚ
  rows_sent : Nat
  rows_examined : Nat
  users : List (List Char)
  hosts : List (List Char)
  first_seen : Option Int
  last_seen : Option Int
deriving DecidableEq, Repr

def emptyStats (nq : List Char) : QueryStats :=
  ⟨nq, [], 0, 0, 0, 0, 0, [], [], none, none⟩

/-- Python dict lookup (generic association list). -/
def alistLookup {κ ν : Type} [BEq κ] (d : List (κ × ν)) (k : κ) : Option ν :=
  (d.find? (fun e => e.1 == k)).map Prod.snd

/-- Python dict store: update in place, else append (dicts preserve
insertion order). -/
def alistUpdate {κ ν : Type} [BEq κ] (k : κ) (v : ν) :
    List (κ × ν) → List (κ × ν)
  | [] => [(k, v)]
  | (k0, v0) :: rest =>
    if k0 == k then (k0, v) :: rest else (k0, v0) :: alistUpdate k v rest

/-- The per-event body of the `for log in logs` loop (lines 198-241):
skip excluded users, normalize, then fold the event into the stats
entry for its digest. -/
def analyzeStep (stats : List (List Char × QueryStats)) (e : SlowLogEvent) :
    List (List Char × QueryStats) :=
  if isExcludedUser e.user then stats
  else
    let nq := normalizeQuery e.query
    let base := (alistLookup stats nq).getD (emptyStats nq)
    let s1 : QueryStats :=
      { base with
        execution_count := base.execution_count + 1
        total_time := base.total_time + e.query_time
        lock_time := base.lock_time + e.lock_time
        rows_sent := base.rows_sent + e.rows_sent
        rows_examined := base.rows_examined + e.rows_examined
        users := setInsert e.user base.users
        hosts := setInsert e.host base.hosts
        example_queries := addExample base.example_queries e.query
        first_seen :=
          match base.first_seen with
          | none => some e.timestamp
          | some t => if e.timestamp < t then some e.timestamp else some t
        last_seen :=
          match base.last_seen with
          | none => some e.timestamp
          | some t => if t < e.timestamp then some e.timestamp else some t }
    alistUpdate nq s1 stats

/-- One aggregated result document (lines 252-266). -/
structure DigestRecord where
  digest_query : List Char
  example_queries : List (List Char)
  execution_count : Nat
  avg_time : ℚ
  total_time : ℚ
  avg_lock_time : ℚ
  avg_rows_sent : ℚ
  avg_rows_examined : ℚ
  users : List (List Char)
  hosts : List (List Char)
  first_seen : Option Int
  last_seen : Option Int
deriving DecidableEq, Repr

def statsToRecord (s : QueryStats) : DigestRecord :=
  ⟨s.digest_query, s.example_queries, s.execution_count,
    s.total_time / s.execution_count, s.total_time,
    s.lock_time / s.execution_count,
    (s.rows_sent : ℚ) / s.execution_count,
    (s.rows_examined : ℚ) / s.execution_count,
    s.users, s.hosts, s.first_seen, s.last_seen⟩

/-- `_analyze_slow_queries`: fold all events, then report the records
sorted by `avg_time` descending (Python `sorted` is stable). -/
def analyze (logs : List SlowLogEvent) : List DigestRecord :=
  ((logs.foldl analyzeStep []).map (fun kv => statsToRecord kv.2)).mergeSort
    (fun a b => b.avg_time ≤ a.avg_time)

/-! ## Digest persistence

Embedding of `_save_metrics` (lines 436-499): for every instance and
every digest record, build the document and `update_one` it with
filter `(date, instance_id, digest_query)` and `upsert=True`.
`created_at` is `datetime.now(kst).isoformat()`, modelled as the call
instant. -/

structure CWDocument where
  date : String
  instance_id : String
  created_at : Int
  digest_query : List Char
  example_queries : List (List Char)
  execution_count : Nat
  avg_time : ℚ
  total_time : ℚ
  avg_lock_time : ℚ
  avg_rows_sent : ℚ
  avg_rows_examined : ℚ
  users : List (List Char)
  hosts : List (List Char)
  first_seen : Option Int
  last_seen : Option Int
deriving DecidableEq, Repr

def mkCWDocument (date : String) (instance_id : String) (created : Int)
    (q : DigestRecord) : CWDocument :=
  ⟨date, instance_id, created, q.digest_query, q.example_queries,
    q.execution_count, q.avg_time, q.total_time, q.avg_lock_time,
    q.avg_rows_sent, q.avg_rows_examined, q.users, q.hosts,
    q.first_seen, q.last_seen⟩

/-- The `filter_doc` natural key `(date, instance_id, digest_query)`. -/
def cwKey (d : CWDocument) : String × String × List Char :=
  (d.date, d.instance_id, d.digest_query)

/-- `update_one(filter, {"$set": document}, upsert=True)`: replace the
first document matching the key, else append. -/
def upsertOne : List CWDocument → CWDocument → List CWDocument
  | [], doc => [doc]
  | d :: rest, doc =>
    if cwKey d = cwKey doc then doc :: rest else d :: upsertOne rest doc

/-- The documents written by one `_save_metrics` call, in write order. -/
def cwDocsOf (data : List (String × List DigestRecord)) (date : String)
    (created : Int) : List CWDocument :=
  data.flatMap (fun iq => iq.2.map (mkCWDocument date iq.1 created))

/-- `_save_metrics`: upsert every document of the run. -/
def save_metrics (data : List (String × List DigestRecord)) (date : String)
    (created : Int) (store : List CWDocument) : List CWDocument :=
  (cwDocsOf data date created).foldl upsertOne store

/-- Number of stored documents holding a natural key. -/
def countKey (store : List CWDocument) (k : String × String × List Char) : Nat :=
  store.countP (fun d => cwKey d == k)

/-- First stored document holding a natural key. -/
def findKey (store : List CWDocument) (k : String × String × List Char) :
    Option CWDocument :=
  store.find? (fun d => cwKey d == k)

/-! ## Log-stream fetch

Embedding of `process_stream` / `_get_slow_query_logs` (lines
106-189).  A stream is modelled as the sequence of responses its
`get_log_events` calls would return; a response either raises (the
caught per-stream exception) or yields a page of events with a
continuation token.  The loop accumulates pages until a page is empty,
the token stops advancing, or the accumulated count reaches
`batch_size` (the `batch_size * 2` check on line 138 is unreachable:
the `>= batch_size` break fires first); an exception ends the stream
with whatever was already fetched.  Chunked `asyncio.gather` preserves
per-stream order, so the concatenation below is the collected
`all_events`, which is finally sorted by timestamp (Python `sort` is
stable). -/

structure RawLogEvent where
  timestamp : Int
  message : List Char
deriving DecidableEq, Repr

structure LogPage where
  events : List RawLogEvent
  nextForwardToken : Option String
deriving DecidableEq, Repr

def process_stream (batchSize : Nat) :
    List (Except String LogPage) → Option String → List RawLogEvent →
      List RawLogEvent
  | [], _, acc => acc
  | r :: rs, tok, acc =>
    match r with
    | .error _ => acc
    | .ok page =>
      let acc2 := acc ++ page.events
      if page.events = [] ∨ page.nextForwardToken = tok ∨ batchSize ≤ acc2.length
      then acc2
      else process_stream batchSize rs page.nextForwardToken acc2

def get_slow_query_logs (batchSize : Nat)
    (streams : List (List (Except String LogPage))) : List RawLogEvent :=
  ((streams.map (fun s => process_stream batchSize s none [])).flatten).mergeSort
    (fun a b => a.timestamp ≤ b.timestamp)

/-! ## Monthly statistics persistence

Embedding of `SQLStatisticsCalculator.calculate_monthly_statistics`
(sql_statistics.py, lines 61-137): the computed per-instance rows are
saved with `delete_many({"month": year_month})` followed by
`insert_many(results)` — but only when `results` is non-empty
(`if results:` on line 125). -/

structure MonthlyStat where
  instance_id : String
  month : String
  unique_digest_count : Nat
  total_slow_query_count : Nat
  total_execution_count : Nat
  total_execution_time : ℚ
  avg_execution_time : ℚ
  total_rows_examined : Int
  read_query_count : Nat
  write_query_count : Nat
  ddl_query_count : Nat
  commit_query_count : Nat
  created_at : Int
deriving DecidableEq, Repr

def save_monthly_statistics (year_month : String) (results : List MonthlyStat)
    (store : List MonthlyStat) : List MonthlyStat :=
  if results.isEmpty then store
  else store.filter (fun s => s.month ≠ year_month) ++ results

/-! Unfolding equations for `subNumAux` and `collapseAux`. -/

theorem afterClose_some_length {q : Char} :
    ∀ {l r : List Char}, afterClose q l = some r → r.length < l.length := by
  intro l
  induction l with
  | nil => intro r h; simp [afterClose] at h
  | cons c cs ih =>
    intro r h
    by_cases hc : c = q
    · simp [afterClose, hc] at h
      subst h
      simp
    · simp [afterClose, hc] at h
      exact Nat.lt_trans (ih h) (by simp)

theorem afterClose_suffix {q : Char} :
    ∀ {l r : List Char}, afterClose q l = some r → r <:+ l := by
  intro l
  induction l with
  | nil => intro r h; simp [afterClose] at h
  | cons c cs ih =>
    intro r h
    by_cases hc : c = q
    · simp [afterClose, hc] at h
      subst h
      exact ⟨[c], rfl⟩
    · simp [afterClose, hc] at h
      exact (ih h).trans ⟨[c], rfl⟩

theorem afterClose_eq_none {q : Char} :
    ∀ {l : List Char}, afterClose q l = none ↔ q ∉ l := by
  intro l
  induction l with
  | nil => simp [afterClose]
  | cons c cs ih =>
    by_cases hc : c = q
    · simp [afterClose, hc]
    · simp [afterClose, hc, ih]
      exact fun _ he => hc he.symm

theorem subNumAux_nil (pv : Bool) : subNumAux pv [] = [] := by
  rw [subNumAux]

theorem subNumAux_cons_nondigit (pv : Bool) (c : Char) (cs : List Char)
    (hc : ¬ c.isDigit) :
    subNumAux pv (c :: cs) = c :: subNumAux (isWordChar c) cs := by
  rw [subNumAux]
  simp [hc]

theorem subNumAux_cons_digit_true (c : Char) (cs : List Char) (hc : c.isDigit) :
    subNumAux true (c :: cs)
      = (c :: cs).takeWhile Char.isDigit
          ++ subNumAux true ((c :: cs).dropWhile Char.isDigit) := by
  rw [subNumAux]
  simp [hc]

theorem subNumAux_cons_digit_false_nil (c : Char) (cs : List Char)
    (hc : c.isDigit) (hr : (c :: cs).dropWhile Char.isDigit = []) :
    subNumAux false (c :: cs) = [qmChar] := by
  rw [subNumAux]
  simp only [hc, reduceDIte, Bool.false_eq_true, reduceIte]
  split
  · rfl
  · rename_i d ds heq
    rw [hr] at heq
    cases heq

theorem subNumAux_cons_digit_false_word (c : Char) (cs : List Char)
    (d : Char) (ds : List Char) (hc : c.isDigit)
    (hr : (c :: cs).dropWhile Char.isDigit = d :: ds) (hw : isWordChar d) :
    subNumAux false (c :: cs)
      = (c :: cs).takeWhile Char.isDigit ++ subNumAux true (d :: ds) := by
  rw [subNumAux]
  simp only [hc, reduceDIte, Bool.false_eq_true, reduceIte]
  split
  · rename_i heq
    rw [hr] at heq
    cases heq
  · rename_i d2 ds2 heq
    rw [hr] at heq
    cases heq
    simp [hw]

theorem subNumAux_cons_digit_false_nonword (c : Char) (cs : List Char)
    (d : Char) (ds : List Char) (hc : c.isDigit)
    (hr : (c :: cs).dropWhile Char.isDigit = d :: ds) (hw : ¬ isWordChar d) :
    subNumAux false (c :: cs) = qmChar :: subNumAux false (d :: ds) := by
  rw [subNumAux]
  simp only [hc, reduceDIte, Bool.false_eq_true, reduceIte]
  split
  · rename_i heq
    rw [hr] at heq
    cases heq
  · rename_i d2 ds2 heq
    rw [hr] at heq
    cases heq
    simp [hw]

theorem collapseAux_nil : collapseAux [] = [] := by
  rw [collapseAux]

theorem collapseAux_cons_nonws (c : Char) (cs : List Char) (hw : ¬ isWsChar c) :
    collapseAux (c :: cs) = c :: collapseAux cs := by
  rw [collapseAux]
  simp [hw]

theorem collapseAux_cons_ws_nil (c : Char) (cs : List Char) (hw : isWsChar c)
    (hr : cs.dropWhile isWsChar = []) :
    collapseAux (c :: cs) = [] := by
  rw [collapseAux]
  simp only [hw, reduceDIte]
  split
  · rfl
  · rename_i d ds heq
    rw [hr] at heq
    cases heq

theorem collapseAux_cons_ws_cons (c : Char) (cs : List Char)
    (d : Char) (ds : List Char) (hw : isWsChar c)
    (hr : cs.dropWhile isWsChar = d :: ds) :
    collapseAux (c :: cs) = ' ' :: collapseAux (d :: ds) := by
  rw [collapseAux]
  simp only [hw, reduceDIte]
  split
  · rename_i heq
    rw [hr] at heq
    cases heq
  · rename_i d2 ds2 heq
    rw [hr] at heq
    cases heq
    rfl

/-! Hypothesis-free evaluation equations (the definitional matches of
the well-founded recursions, restated with non-dependent matches so
that concrete inputs reduce by rewriting). -/

theorem subQuote_nil (q : Char) : subQuote q [] = [] := by
  rw [subQuote]

theorem subQuote_eval (q c : Char) (cs : List Char) :
    subQuote q (c :: cs)
      = if c = q then
          match afterClose q cs with
          | some rest => qmChar :: subQuote q rest
          | none => c :: cs
        else c :: subQuote q cs := by
  by_cases hc : c = q
  · rw [if_pos hc, subQuote, if_pos hc]
    split
    · rename_i rest heq
      rw [heq]
    · rename_i heq
      rw [heq]
  · rw [if_neg hc, subQuote, if_neg hc]

theorem subNumAux_eval (pv : Bool) (c : Char) (cs : List Char) :
    subNumAux pv (c :: cs)
      = if c.isDigit then
          if pv then
            (c :: cs).takeWhile Char.isDigit ++
              subNumAux true ((c :: cs).dropWhile Char.isDigit)
          else
            if (c :: cs).dropWhile Char.isDigit = [] then [qmChar]
            else if isWordChar (((c :: cs).dropWhile Char.isDigit).headD ' ') then
              (c :: cs).takeWhile Char.isDigit ++
                subNumAux true ((c :: cs).dropWhile Char.isDigit)
            else qmChar :: subNumAux false ((c :: cs).dropWhile Char.isDigit)
        else c :: subNumAux (isWordChar c) cs := by
  by_cases hc : c.isDigit
  · rw [if_pos hc]
    rcases pv with _ | _
    · simp only [Bool.false_eq_true, reduceIte]
      rcases hr : (c :: cs).dropWhile Char.isDigit with _ | ⟨d, ds⟩
      · rw [subNumAux_cons_digit_false_nil c cs hc hr, if_pos rfl]
      · rw [if_neg (by simp)]
        simp only [List.headD_cons]
        by_cases hw : isWordChar d
        · rw [subNumAux_cons_digit_false_word c cs d ds hc hr hw, if_pos hw]
        · rw [subNumAux_cons_digit_false_nonword c cs d ds hc hr hw, if_neg hw]
    · rw [subNumAux_cons_digit_true c cs hc]
      simp only [reduceIte]
  · rw [if_neg hc, subNumAux_cons_nondigit pv c cs hc]

theorem collapseAux_eval (c : Char) (cs : List Char) :
    collapseAux (c :: cs)
      = if isWsChar c then
          if cs.dropWhile isWsChar = [] then []
          else ' ' :: collapseAux (cs.dropWhile isWsChar)
        else c :: collapseAux cs := by
  by_cases hw : isWsChar c
  · rw [if_pos hw]
    rcases hr : cs.dropWhile isWsChar with _ | ⟨d, ds⟩
    · rw [collapseAux_cons_ws_nil c cs hw hr, if_pos rfl]
    · rw [collapseAux_cons_ws_cons c cs d ds hw hr, if_neg (by simp)]
  · rw [if_neg hw, collapseAux_cons_nonws c cs hw]

/-! ### Idempotence of the quote passes

`subQuote q` leaves at most one `q` in its output (the quotes are
paired off from the left), and on a list containing at most one `q`
it is the identity. -/

theorem count_subQuote_self (q : Char) (hq : q ≠ qmChar) :
    ∀ l : List Char, (subQuote q l).count q ≤ 1 := by
  intro l
  generalize hn : l.length = n
  induction n using Nat.strong_induction_on generalizing l with
  | _ n ih =>
    match l with
    | [] => simp [subQuote]
    | c :: cs =>
      by_cases hc : c = q
      · rcases h : afterClose q cs with _ | rest
        · rw [subQuote, if_pos hc, h]
          have hnot : q ∉ cs := afterClose_eq_none.mp h
          subst hc
          rw [List.count_cons_self, List.count_eq_zero.mpr hnot]
        · rw [subQuote, if_pos hc, h]
          rw [List.count_cons_of_ne hq]
          have hrest : rest.length < n := by
            subst hn
            exact Nat.lt_trans (afterClose_some_length h) (by simp)
          exact ih rest.length hrest rest rfl
      · rw [subQuote, if_neg hc]
        have hqc : q ≠ c := fun h => hc h.symm
        rw [List.count_cons_of_ne hqc]
        have hcs : cs.length < n := by subst hn; simp
        exact ih cs.length hcs cs rfl

theorem subQuote_eq_self (q : Char) :
    ∀ l : List Char, l.count q ≤ 1 → subQuote q l = l := by
  intro l
  induction l with
  | nil => intro _; simp [subQuote]
  | cons c cs ih =>
    intro hcnt
    by_cases hc : c = q
    · subst hc
      rw [List.count_cons_self] at hcnt
      have h0 : cs.count c = 0 := by omega
      have hnone : afterClose c cs = none :=
        afterClose_eq_none.mpr (List.count_eq_zero.mp h0)
      rw [subQuote, if_pos rfl, hnone]
    · rw [subQuote, if_neg hc]
      have hqc : q ≠ c := fun h => hc h.symm
      rw [List.count_cons_of_ne hqc] at hcnt
      rw [ih hcnt]

theorem count_subQuote_le (q c : Char) (hc : c ≠ qmChar) :
    ∀ l : List Char, (subQuote q l).count c ≤ l.count c := by
  intro l
  generalize hn : l.length = n
  induction n using Nat.strong_induction_on generalizing l with
  | _ n ih =>
    match l with
    | [] => simp [subQuote]
    | c0 :: cs =>
      by_cases hc0 : c0 = q
      · rcases h : afterClose q cs with _ | rest
        · rw [subQuote, if_pos hc0, h]
        · rw [subQuote, if_pos hc0, h]
          have hsuf : rest <:+ cs := afterClose_suffix h
          have hle : rest.count c ≤ cs.count c := hsuf.sublist.count_le c
          have hrest : rest.length < n := by
            subst hn
            exact Nat.lt_trans (afterClose_some_length h) (by simp)
          have hih := ih rest.length hrest rest rfl
          rw [List.count_cons_of_ne hc]
          calc (subQuote q rest).count c ≤ rest.count c := hih
            _ ≤ cs.count c := hle
            _ ≤ (c0 :: cs).count c := List.count_le_count_cons c c0 cs
      · rw [subQuote, if_neg hc0]
        rw [List.count_cons c c0 (subQuote q cs), List.count_cons c c0 cs]
        have hcs : cs.length < n := by subst hn; simp
        have := ih cs.length hcs cs rfl
        omega

/-! ### The later passes do not create quote characters -/

theorem count_subNumAux_le (c : Char) (hd : ¬ c.isDigit) (hq : c ≠ qmChar) :
    ∀ (pv : Bool) (l : List Char), (subNumAux pv l).count c ≤ l.count c := by
  intro pv l
  generalize hn : l.length = n
  induction n using Nat.strong_induction_on generalizing pv l with
  | _ n ih =>
    match l with
    | [] => simp [subNumAux]
    | c0 :: cs =>
      by_cases hc0 : c0.isDigit
      · have hrun : ((c0 :: cs).takeWhile Char.isDigit).count c = 0 := by
          rw [List.count_eq_zero]
          intro hmem
          exact hd (List.mem_takeWhile_imp hmem)
        have hsplit : ((c0 :: cs).takeWhile Char.isDigit).count c
            + ((c0 :: cs).dropWhile Char.isDigit).count c = (c0 :: cs).count c := by
          rw [← List.count_append, List.takeWhile_append_dropWhile]
        have hlen : ((c0 :: cs).dropWhile Char.isDigit).length < n := by
          subst hn
          have h1 : ((c0 :: cs).dropWhile Char.isDigit).length ≤ cs.length := by
            simp [List.dropWhile_cons, hc0]
            exact (List.dropWhile_sublist _).length_le
          simp only [List.length_cons]
          omega
        rcases hr : (c0 :: cs).dropWhile Char.isDigit with _ | ⟨d, ds⟩
        · rw [hr] at hsplit hlen
          simp only [List.count_nil, Nat.add_zero] at hsplit
          rcases pv with _ | _
          · rw [subNumAux_cons_digit_false_nil c0 cs hc0 hr]
            have : (c ≠ qmChar) := hq
            simp [List.count_cons_of_ne hq]
          · rw [subNumAux_cons_digit_true c0 cs hc0, hr]
            rw [List.count_append, hrun]
            simp [subNumAux_nil]
        · rw [hr] at hsplit hlen
          have hih1 := ih (d :: ds).length hlen true (d :: ds) rfl
          have hih2 := ih (d :: ds).length hlen false (d :: ds) rfl
          rcases pv with _ | _
          · by_cases hw : isWordChar d
            · rw [subNumAux_cons_digit_false_word c0 cs d ds hc0 hr hw]
              rw [List.count_append, hrun]
              omega
            · rw [subNumAux_cons_digit_false_nonword c0 cs d ds hc0 hr hw]
              rw [List.count_cons_of_ne hq]
              omega
          · rw [subNumAux_cons_digit_true c0 cs hc0, hr]
            rw [List.count_append, hrun]
            omega
      · rw [subNumAux_cons_nondigit pv c0 cs hc0]
        rw [List.count_cons c c0, List.count_cons c c0]
        have hcs : cs.length < n := by subst hn; simp
        have := ih cs.length hcs (isWordChar c0) cs rfl
        omega

theorem count_collapseAux_le (c : Char) (hsp : c ≠ ' ') :
    ∀ l : List Char, (collapseAux l).count c ≤ l.count c := by
  intro l
  generalize hn : l.length = n
  induction n using Nat.strong_induction_on generalizing l with
  | _ n ih =>
    match l with
    | [] => simp [collapseAux]
    | c0 :: cs =>
      by_cases hw : isWsChar c0
      · rcases hr : cs.dropWhile isWsChar with _ | ⟨d, ds⟩
        · rw [collapseAux_cons_ws_nil c0 cs hw hr]
          simp
        · rw [collapseAux_cons_ws_cons c0 cs d ds hw hr]
          have hsuf : (d :: ds) <:+ cs := by
            rw [← hr]; exact List.dropWhile_suffix _
          have hle : (d :: ds).count c ≤ cs.count c := hsuf.sublist.count_le c
          have hlen : (d :: ds).length < n := by
            subst hn
            have := hsuf.sublist.length_le
            simp only [List.length_cons] at this ⊢
            omega
          have hih := ih (d :: ds).length hlen (d :: ds) rfl
          rw [List.count_cons_of_ne hsp]
          calc (collapseAux (d :: ds)).count c ≤ (d :: ds).count c := hih
            _ ≤ cs.count c := hle
            _ ≤ (c0 :: cs).count c := List.count_le_count_cons c c0 cs
      · rw [collapseAux_cons_nonws c0 cs hw]
        rw [List.count_cons c c0, List.count_cons c c0]
        have hcs : cs.length < n := by subst hn; simp
        have := ih cs.length hcs cs rfl
        omega

theorem count_collapse_le (c : Char) (hsp : c ≠ ' ') (l : List Char) :
    (collapse l).count c ≤ l.count c := by
  calc (collapse l).count c ≤ (l.dropWhile isWsChar).count c :=
        count_collapseAux_le c hsp _
    _ ≤ l.count c := (List.dropWhile_sublist _).count_le c

/-! ### Idempotence of the numeric pass -/

theorem numFixed_nil (pv : Bool) : numFixed pv [] = true := by
  rw [numFixed]

theorem numFixed_cons_nondigit (pv : Bool) (c : Char) (cs : List Char)
    (hc : ¬ c.isDigit) :
    numFixed pv (c :: cs) = numFixed (isWordChar c) cs := by
  rw [numFixed]
  simp [hc]

theorem numFixed_cons_digit_true (c : Char) (cs : List Char) (hc : c.isDigit) :
    numFixed true (c :: cs) = numFixed true ((c :: cs).dropWhile Char.isDigit) := by
  rw [numFixed]
  simp [hc]

theorem numFixed_cons_digit_false_nil (c : Char) (cs : List Char)
    (hc : c.isDigit) (hr : (c :: cs).dropWhile Char.isDigit = []) :
    numFixed false (c :: cs) = false := by
  rw [numFixed]
  simp only [hc, reduceDIte, Bool.false_eq_true, reduceIte]
  split
  · rfl
  · rename_i d ds heq
    rw [hr] at heq
    cases heq

theorem numFixed_cons_digit_false_cons (c : Char) (cs : List Char)
    (d : Char) (ds : List Char) (hc : c.isDigit)
    (hr : (c :: cs).dropWhile Char.isDigit = d :: ds) :
    numFixed false (c :: cs) = (isWordChar d && numFixed true (d :: ds)) := by
  rw [numFixed]
  simp only [hc, reduceDIte, Bool.false_eq_true, reduceIte]
  split
  · rename_i heq
    rw [hr] at heq
    cases heq
  · rename_i d2 ds2 heq
    rw [hr] at heq
    cases heq
    rfl

/-! Character-class facts used below. -/

theorem isWsChar_not_digit {c : Char} (h : isWsChar c) : ¬ c.isDigit := by
  simp only [isWsChar, Bool.or_eq_true, decide_eq_true_eq] at h
  rcases h with ((((h | h) | h) | h) | h) | h <;> subst h <;> decide

theorem isWsChar_not_word {c : Char} (h : isWsChar c) : ¬ isWordChar c := by
  simp only [isWsChar, Bool.or_eq_true, decide_eq_true_eq] at h
  rcases h with ((((h | h) | h) | h) | h) | h <;> subst h <;> decide

theorem isDigit_word {c : Char} (h : c.isDigit) : isWordChar c := by
  simp [isWordChar, h]

theorem isWordChar_not_ws {c : Char} (h : isWordChar c) : ¬ isWsChar c :=
  fun hw => isWsChar_not_word hw h

theorem head_not_of_dropWhile_eq_self {p : Char → Bool} {c : Char}
    {cs : List Char} (h : (c :: cs).dropWhile p = c :: cs) : ¬ p c = true := by
  intro hp
  rw [List.dropWhile_cons, if_pos hp] at h
  have := congrArg List.length h
  have hle := (List.dropWhile_sublist (l := cs) p).length_le
  simp only [List.length_cons] at this
  omega

theorem dropWhile_all_append {p : Char → Bool} :
    ∀ (run Y : List Char), (∀ x ∈ run, p x) →
      (run ++ Y).dropWhile p = Y.dropWhile p := by
  intro run
  induction run with
  | nil => intro Y _; rfl
  | cons r rs ih =>
    intro Y hall
    rw [List.cons_append, List.dropWhile_cons, if_pos (hall r (by simp))]
    exact ih Y (fun x hx => hall x (by simp [hx]))

theorem numFixed_run_append {run Y : List Char} (hne : run ≠ [])
    (hall : ∀ x ∈ run, x.isDigit) (hY : Y.dropWhile Char.isDigit = Y) :
    numFixed true (run ++ Y) = numFixed true Y := by
  match run with
  | [] => exact absurd rfl hne
  | r :: rs =>
    rw [List.cons_append,
      numFixed_cons_digit_true r (rs ++ Y) (hall r (by simp))]
    rw [show (r :: (rs ++ Y)) = (r :: rs) ++ Y by simp]
    rw [dropWhile_all_append (r :: rs) Y hall, hY]

theorem numFixed_run_append_false {run Y : List Char} {d : Char}
    {ds : List Char} (hne : run ≠ []) (hall : ∀ x ∈ run, x.isDigit)
    (hY : Y = d :: ds) (hd : ¬ d.isDigit) :
    numFixed false (run ++ Y) = (isWordChar d && numFixed true Y) := by
  match run with
  | [] => exact absurd rfl hne
  | r :: rs =>
    have hdrop : ((r :: rs) ++ Y).dropWhile Char.isDigit = d :: ds := by
      rw [dropWhile_all_append (r :: rs) Y hall, hY,
        List.dropWhile_cons, if_neg hd]
    rw [List.cons_append] at hdrop ⊢
    rw [numFixed_cons_digit_false_cons r (rs ++ Y) d ds (hall r (by simp)) hdrop,
      hY]

theorem subNumAux_eq_self_of_numFixed :
    ∀ (pv : Bool) (l : List Char), numFixed pv l = true → subNumAux pv l = l := by
  intro pv l
  generalize hn : l.length = n
  induction n using Nat.strong_induction_on generalizing pv l with
  | _ n ih =>
    match l with
    | [] => intro _; exact subNumAux_nil pv
    | c :: cs =>
      intro hfix
      by_cases hc : c.isDigit
      · have hlen : ((c :: cs).dropWhile Char.isDigit).length < n := by
          subst hn
          have h1 : ((c :: cs).dropWhile Char.isDigit).length ≤ cs.length := by
            simp [List.dropWhile_cons, hc]
            exact (List.dropWhile_sublist _).length_le
          simp only [List.length_cons]
          omega
        rcases pv with _ | _
        · rcases hr : (c :: cs).dropWhile Char.isDigit with _ | ⟨d, ds⟩
          · rw [numFixed_cons_digit_false_nil c cs hc hr] at hfix
            cases hfix
          · rw [numFixed_cons_digit_false_cons c cs d ds hc hr] at hfix
            rw [Bool.and_eq_true] at hfix
            rw [hr] at hlen
            rw [subNumAux_cons_digit_false_word c cs d ds hc hr hfix.1,
              ih (d :: ds).length hlen true (d :: ds) rfl hfix.2, ← hr,
              List.takeWhile_append_dropWhile]
        · rw [numFixed_cons_digit_true c cs hc] at hfix
          rw [subNumAux_cons_digit_true c cs hc,
            ih _ hlen true _ rfl hfix, List.takeWhile_append_dropWhile]
      · rw [numFixed_cons_nondigit pv c cs hc] at hfix
        have hcs : cs.length < n := by subst hn; simp
        rw [subNumAux_cons_nondigit pv c cs hc,
          ih cs.length hcs (isWordChar c) cs rfl hfix]

theorem dropWhile_digit_subNumAux {l : List Char}
    (h : l.dropWhile Char.isDigit = l) (pv : Bool) :
    (subNumAux pv l).dropWhile Char.isDigit = subNumAux pv l := by
  match l with
  | [] => rw [subNumAux_nil]; rfl
  | c :: cs =>
    have hc : ¬ c.isDigit := head_not_of_dropWhile_eq_self h
    rw [subNumAux_cons_nondigit pv c cs hc, List.dropWhile_cons, if_neg hc]

theorem numFixed_subNumAux :
    ∀ (pv : Bool) (l : List Char), numFixed pv (subNumAux pv l) = true := by
  intro pv l
  generalize hn : l.length = n
  induction n using Nat.strong_induction_on generalizing pv l with
  | _ n ih =>
    match l with
    | [] => rw [subNumAux_nil]; exact numFixed_nil pv
    | c :: cs =>
      by_cases hc : c.isDigit
      · have hrunall : ∀ x ∈ (c :: cs).takeWhile Char.isDigit, x.isDigit :=
          fun x hx => List.mem_takeWhile_imp hx
        have hrunne : (c :: cs).takeWhile Char.isDigit ≠ [] := by
          rw [List.takeWhile_cons, if_pos hc]
          simp
        have hresteq : ((c :: cs).dropWhile Char.isDigit).dropWhile Char.isDigit
            = (c :: cs).dropWhile Char.isDigit := List.dropWhile_idempotent _ _
        have hlen : ((c :: cs).dropWhile Char.isDigit).length < n := by
          subst hn
          have h1 : ((c :: cs).dropWhile Char.isDigit).length ≤ cs.length := by
            simp [List.dropWhile_cons, hc]
            exact (List.dropWhile_sublist _).length_le
          simp only [List.length_cons]
          omega
        rcases pv with _ | _
        · rcases hr : (c :: cs).dropWhile Char.isDigit with _ | ⟨d, ds⟩
          · rw [subNumAux_cons_digit_false_nil c cs hc hr]
            rw [numFixed_cons_nondigit false qmChar [] (by decide)]
            exact numFixed_nil _
          · rw [hr] at hresteq hlen
            have hd : ¬ d.isDigit := head_not_of_dropWhile_eq_self hresteq
            by_cases hw : isWordChar d
            · rw [subNumAux_cons_digit_false_word c cs d ds hc hr hw]
              have hY : subNumAux true (d :: ds)
                  = d :: subNumAux (isWordChar d) ds :=
                subNumAux_cons_nondigit true d ds hd
              rw [numFixed_run_append_false hrunne hrunall hY hd]
              rw [ih (d :: ds).length hlen true (d :: ds) rfl]
              simp [hw]
            · rw [subNumAux_cons_digit_false_nonword c cs d ds hc hr hw]
              rw [numFixed_cons_nondigit false qmChar _ (by decide)]
              have : isWordChar qmChar = false := by decide
              rw [this]
              exact ih (d :: ds).length hlen false (d :: ds) rfl
        · rw [subNumAux_cons_digit_true c cs hc]
          rw [numFixed_run_append hrunne hrunall
            (dropWhile_digit_subNumAux hresteq true)]
          exact ih _ hlen true _ rfl
      · have hcs : cs.length < n := by subst hn; simp
        rw [subNumAux_cons_nondigit pv c cs hc,
          numFixed_cons_nondigit pv c _ hc]
        exact ih cs.length hcs (isWordChar c) cs rfl

/-! ### The whitespace collapse preserves the numeric fixed point -/

theorem numFixed_dropWhile_ws :
    ∀ l : List Char, numFixed false l = true →
      numFixed false (l.dropWhile isWsChar) = true := by
  intro l
  induction l with
  | nil => intro h; exact h
  | cons c cs ih =>
    intro h
    by_cases hw : isWsChar c
    · rw [List.dropWhile_cons, if_pos hw]
      rw [numFixed_cons_nondigit false c cs (isWsChar_not_digit hw)] at h
      have : isWordChar c = false := by
        have := isWsChar_not_word hw
        simpa using this
      rw [this] at h
      exact ih h
    · rw [List.dropWhile_cons, if_neg hw]
      exact h

theorem collapseAux_nonws_run_append :
    ∀ (run X : List Char), (∀ x ∈ run, ¬ isWsChar x) →
      collapseAux (run ++ X) = run ++ collapseAux X := by
  intro run
  induction run with
  | nil => intro X _; rfl
  | cons r rs ih =>
    intro X hall
    rw [List.cons_append, collapseAux_cons_nonws r _ (hall r (by simp)),
      ih X (fun x hx => hall x (by simp [hx])), List.cons_append]

theorem dropWhile_digit_collapseAux {l : List Char}
    (h : l.dropWhile Char.isDigit = l) :
    (collapseAux l).dropWhile Char.isDigit = collapseAux l := by
  match l with
  | [] => rw [collapseAux_nil]; rfl
  | c :: cs =>
    have hc : ¬ c.isDigit := head_not_of_dropWhile_eq_self h
    by_cases hw : isWsChar c
    · rcases hr : cs.dropWhile isWsChar with _ | ⟨d, ds⟩
      · rw [collapseAux_cons_ws_nil c cs hw hr]; rfl
      · rw [collapseAux_cons_ws_cons c cs d ds hw hr,
          List.dropWhile_cons, if_neg (by decide : ¬ (' ').isDigit = true)]
    · rw [collapseAux_cons_nonws c cs hw, List.dropWhile_cons, if_neg hc]

theorem numFixed_collapseAux :
    ∀ (pv : Bool) (l : List Char), numFixed pv l = true →
      numFixed pv (collapseAux l) = true := by
  intro pv l
  generalize hn : l.length = n
  induction n using Nat.strong_induction_on generalizing pv l with
  | _ n ih =>
    match l with
    | [] => intro _; rw [collapseAux_nil]; exact numFixed_nil pv
    | c :: cs =>
      intro hfix
      by_cases hw : isWsChar c
      · have hc : ¬ c.isDigit := isWsChar_not_digit hw
        rw [numFixed_cons_nondigit pv c cs hc] at hfix
        have hwc : isWordChar c = false := by
          have := isWsChar_not_word hw
          simpa using this
        rw [hwc] at hfix
        rcases hr : cs.dropWhile isWsChar with _ | ⟨d, ds⟩
        · rw [collapseAux_cons_ws_nil c cs hw hr]
          exact numFixed_nil pv
        · rw [collapseAux_cons_ws_cons c cs d ds hw hr]
          rw [numFixed_cons_nondigit pv ' ' _ (by decide)]
          have : isWordChar ' ' = false := by decide
          rw [this]
          have hsub : numFixed false (d :: ds) = true := by
            have := numFixed_dropWhile_ws cs hfix
            rwa [hr] at this
          have hlen : (d :: ds).length < n := by
            subst hn
            have h1 : (cs.dropWhile isWsChar).length ≤ cs.length :=
              (List.dropWhile_sublist _).length_le
            rw [hr] at h1
            simp only [List.length_cons] at h1 ⊢
            omega
          exact ih (d :: ds).length hlen false (d :: ds) rfl hsub
      · by_cases hc : c.isDigit
        · -- digit run at the head: the collapse keeps it and its
          -- non-whitespace neighbour intact
          have hrunall : ∀ x ∈ (c :: cs).takeWhile Char.isDigit, x.isDigit :=
            fun x hx => List.mem_takeWhile_imp hx
          have hrunne : (c :: cs).takeWhile Char.isDigit ≠ [] := by
            rw [List.takeWhile_cons, if_pos hc]
            simp
          have hrunnws : ∀ x ∈ (c :: cs).takeWhile Char.isDigit, ¬ isWsChar x :=
            fun x hx => fun hws => isWsChar_not_digit hws (hrunall x hx)
          have hresteq : ((c :: cs).dropWhile Char.isDigit).dropWhile Char.isDigit
              = (c :: cs).dropWhile Char.isDigit := List.dropWhile_idempotent _ _
          have hlen : ((c :: cs).dropWhile Char.isDigit).length < n := by
            subst hn
            have h1 : ((c :: cs).dropWhile Char.isDigit).length ≤ cs.length := by
              simp [List.dropWhile_cons, hc]
              exact (List.dropWhile_sublist _).length_le
            simp only [List.length_cons]
            omega
          have hsplit2 : collapseAux (c :: cs)
              = (c :: cs).takeWhile Char.isDigit
                ++ collapseAux ((c :: cs).dropWhile Char.isDigit) := by
            conv_lhs => rw [← List.takeWhile_append_dropWhile
              (p := Char.isDigit) (l := c :: cs)]
            exact collapseAux_nonws_run_append _ _ hrunnws
          rcases pv with _ | _
          · rcases hr : (c :: cs).dropWhile Char.isDigit with _ | ⟨d, ds⟩
            · rw [numFixed_cons_digit_false_nil c cs hc hr] at hfix
              cases hfix
            · rw [numFixed_cons_digit_false_cons c cs d ds hc hr] at hfix
              rw [Bool.and_eq_true] at hfix
              rw [hr] at hresteq hlen
              have hd : ¬ d.isDigit := head_not_of_dropWhile_eq_self hresteq
              have hdnws : ¬ isWsChar d := isWordChar_not_ws hfix.1
              rw [hsplit2, hr, collapseAux_cons_nonws d ds hdnws]
              rw [numFixed_run_append_false hrunne hrunall rfl hd]
              rw [← collapseAux_cons_nonws d ds hdnws]
              have := ih (d :: ds).length hlen true (d :: ds) rfl hfix.2
              rw [this]
              simp [hfix.1]
          · rw [numFixed_cons_digit_true c cs hc] at hfix
            rw [hsplit2]
            rw [numFixed_run_append hrunne hrunall
              (dropWhile_digit_collapseAux hresteq)]
            exact ih _ hlen true _ rfl hfix
        · rw [collapseAux_cons_nonws c cs hw,
            numFixed_cons_nondigit pv c _ hc]
          rw [numFixed_cons_nondigit pv c cs hc] at hfix
          have hcs : cs.length < n := by subst hn; simp
          exact ih cs.length hcs (isWordChar c) cs rfl hfix

theorem numFixed_collapse (l : List Char) (h : numFixed false l = true) :
    numFixed false (collapse l) = true :=
  numFixed_collapseAux false _ (numFixed_dropWhile_ws l h)

/-! ### Idempotence of the whitespace collapse -/

theorem collapseAux_idem :
    ∀ l : List Char, collapseAux (collapseAux l) = collapseAux l := by
  intro l
  generalize hn : l.length = n
  induction n using Nat.strong_induction_on generalizing l with
  | _ n ih =>
    match l with
    | [] => rw [collapseAux_nil, collapseAux_nil]
    | c :: cs =>
      by_cases hw : isWsChar c
      · rcases hr : cs.dropWhile isWsChar with _ | ⟨d, ds⟩
        · rw [collapseAux_cons_ws_nil c cs hw hr, collapseAux_nil]
        · have hd : ¬ isWsChar d := by
            have : (d :: ds).dropWhile isWsChar = d :: ds := by
              rw [← hr]; exact List.dropWhile_idempotent _ _
            exact head_not_of_dropWhile_eq_self this
          have hlen : (d :: ds).length < n := by
            subst hn
            have h1 : (cs.dropWhile isWsChar).length ≤ cs.length :=
              (List.dropWhile_sublist _).length_le
            rw [hr] at h1
            simp only [List.length_cons] at h1 ⊢
            omega
          rw [collapseAux_cons_ws_cons c cs d ds hw hr]
          have hx : collapseAux (d :: ds) = d :: collapseAux ds :=
            collapseAux_cons_nonws d ds hd
          rw [hx]
          rw [collapseAux_cons_ws_cons ' ' (d :: collapseAux ds) d
            (collapseAux ds) (by decide)
            (by rw [List.dropWhile_cons, if_neg hd])]
          rw [← hx, ih (d :: ds).length hlen (d :: ds) rfl, hx]
      · have hcs : cs.length < n := by subst hn; simp
        rw [collapseAux_cons_nonws c cs hw, collapseAux_cons_nonws c _ hw,
          ih cs.length hcs cs rfl]

theorem dropWhile_ws_collapseAux {l : List Char}
    (h : l.dropWhile isWsChar = l) :
    (collapseAux l).dropWhile isWsChar = collapseAux l := by
  match l with
  | [] => rw [collapseAux_nil]; rfl
  | c :: cs =>
    have hc : ¬ isWsChar c := head_not_of_dropWhile_eq_self h
    rw [collapseAux_cons_nonws c cs hc, List.dropWhile_cons, if_neg hc]

theorem collapse_idem (l : List Char) : collapse (collapse l) = collapse l := by
  unfold collapse
  rw [dropWhile_ws_collapseAux (List.dropWhile_idempotent _ _)]
  exact collapseAux_idem _

/-! ### Idempotence of the full normalizer -/

theorem subQuote_normalizeQuery_squote (l : List Char) :
    subQuote squoteChar (normalizeQuery l) = normalizeQuery l := by
  apply subQuote_eq_self
  calc (normalizeQuery l).count squoteChar
      ≤ (subNum (subQuote dquoteChar (subQuote squoteChar l))).count squoteChar :=
        count_collapse_le squoteChar (by decide) _
    _ ≤ (subQuote dquoteChar (subQuote squoteChar l)).count squoteChar :=
        count_subNumAux_le squoteChar (by decide) (by decide) false _
    _ ≤ (subQuote squoteChar l).count squoteChar :=
        count_subQuote_le dquoteChar squoteChar (by decide) _
    _ ≤ 1 := count_subQuote_self squoteChar (by decide) l

theorem subQuote_normalizeQuery_dquote (l : List Char) :
    subQuote dquoteChar (normalizeQuery l) = normalizeQuery l := by
  apply subQuote_eq_self
  calc (normalizeQuery l).count dquoteChar
      ≤ (subNum (subQuote dquoteChar (subQuote squoteChar l))).count dquoteChar :=
        count_collapse_le dquoteChar (by decide) _
    _ ≤ (subQuote dquoteChar (subQuote squoteChar l)).count dquoteChar :=
        count_subNumAux_le dquoteChar (by decide) (by decide) false _
    _ ≤ 1 := count_subQuote_self dquoteChar (by decide) _

theorem subNum_normalizeQuery (l : List Char) :
    subNum (normalizeQuery l) = normalizeQuery l :=
  subNumAux_eq_self_of_numFixed false _
    (numFixed_collapse _ (numFixed_subNumAux false _))

theorem collapse_normalizeQuery (l : List Char) :
    collapse (normalizeQuery l) = normalizeQuery l :=
  collapse_idem _

theorem normalizeQuery_idem (l : List Char) :
    normalizeQuery (normalizeQuery l) = normalizeQuery l := by
  conv_lhs => rw [normalizeQuery, subQuote_normalizeQuery_squote,
    subQuote_normalizeQuery_dquote, subNum_normalizeQuery,
    collapse_normalizeQuery]

/-- C3: the query normalizer of
`RDSCloudWatchSlowQueryCollector._normalize_query` is idempotent: for
every input string `s`, `normalize (normalize s) = normalize s`, where
`normalize` replaces single- and double-quoted literals and
word-bounded numeric literals with the placeholder `?` and collapses
whitespace runs to single spaces. -/
theorem normalize_idempotent (s : String) : normalize (normalize s) = normalize s := by
  unfold normalize
  exact congrArg String.mk (normalizeQuery_idem s.data)


/-! Association-list lemmas for the pid cache. -/

theorem cacheLookup_update_self (pid : Int) (entry : CacheEntry) :
    ∀ cache : List (Int × CacheEntry),
      cacheLookup (cacheUpdate pid entry cache) pid = some entry := by
  intro cache
  induction cache with
  | nil => simp [cacheUpdate, cacheLookup]
  | cons pe rest ih =>
    obtain ⟨p, e⟩ := pe
    by_cases hp : p = pid
    · simp [cacheUpdate, hp, cacheLookup]
    · simp only [cacheUpdate, beq_iff_eq, hp, if_false]
      simp only [cacheLookup, List.find?_cons] at ih ⊢
      have : (p == pid) = false := by simp [hp]
      rw [this]
      exact ih

theorem cacheLookup_update_ne (pid p : Int) (entry : CacheEntry) (hne : p ≠ pid) :
    ∀ cache : List (Int × CacheEntry),
      cacheLookup (cacheUpdate pid entry cache) p = cacheLookup cache p := by
  intro cache
  induction cache with
  | nil =>
    have : (pid == p) = false := by simp [Ne.symm hne]
    simp [cacheUpdate, cacheLookup, List.find?_cons, this]
  | cons pe rest ih =>
    obtain ⟨p0, e0⟩ := pe
    by_cases hp : p0 = pid
    · subst hp
      simp only [cacheUpdate, beq_self_eq_true, if_true]
      simp [cacheLookup, List.find?_cons, Ne.symm hne]
    · simp only [cacheUpdate, beq_iff_eq, hp, if_false]
      by_cases hp0 : p0 = p
      · simp [cacheLookup, List.find?_cons, hp0]
      · simp only [cacheLookup, List.find?_cons] at ih ⊢
        have : (p0 == p) = false := by simp [hp0]
        rw [this]
        exact ih

/-- Shared step lemma: one `process_query_result` call never deletes a
cache entry, never decreases its `max_time`, and never changes its
`start`. -/
theorem process_step_entry (cfg : ScraperConfig) (now : Int) (row : ProcessRow)
    (acc : List Int × List (Int × CacheEntry)) (pid : Int) (e : CacheEntry)
    (h : cacheLookup acc.2 pid = some e) :
    ∃ e', cacheLookup (process_query_result cfg now row acc).2 pid = some e' ∧
      e.max_time ≤ e'.max_time ∧ e'.start = e.start := by
  by_cases ht : cfg.exec_time ≤ row.time
  · by_cases hp : pid = row.pid
    · subst hp
      simp only [process_query_result, if_pos ht, h]
      rw [cacheLookup_update_self]
      exact ⟨_, rfl, le_max_left _ _, rfl⟩
    · refine ⟨e, ?_, le_refl _, rfl⟩
      simp only [process_query_result, if_pos ht]
      rw [cacheLookup_update_ne _ _ _ hp]
      exact h
  · exact ⟨e, by simp only [process_query_result, if_neg ht]; exact h, le_refl _, rfl⟩

/-- C1 (counterexample): the claim says the tracker sets
`start_estimate` to "now minus the observed elapsed time".  With
threshold `EXEC_TIME = 2`, sampling instant `now = 100` and a first
observation of pid 101 at elapsed time 5, the code stores
`start = 98 = now - EXEC_TIME`, not `95 = now - 5 = now - elapsed`. -/
theorem start_estimate_not_now_minus_elapsed :
    (cacheLookup (process_query_result ⟨2, "inst1"⟩ 100
        ⟨101, "d", "u", "h", 5, []⟩ ([], [])).2 101).map CacheEntry.start
      = some 98 ∧ (98 : Int) ≠ 100 - 5 := by
  constructor
  · rfl
  · decide

/-- C1 (amended): when a pid is first observed with elapsed time at or
above the threshold, the tracker sets its `start_estimate` to the
current time minus the **threshold** (`EXEC_TIME`), computes it
exactly once, and never changes it on later observations of the same
pid. -/
theorem start_estimate_once (cfg : ScraperConfig) (now : Int) (row : ProcessRow)
    (acc : List Int × List (Int × CacheEntry)) :
    (cacheLookup acc.2 row.pid = none → cfg.exec_time ≤ row.time →
      (cacheLookup (process_query_result cfg now row acc).2 row.pid).map
          CacheEntry.start = some (now - cfg.exec_time)) ∧
    (∀ (pid : Int) (e : CacheEntry), cacheLookup acc.2 pid = some e →
      (cacheLookup (process_query_result cfg now row acc).2 pid).map
          CacheEntry.start = some e.start) := by
  constructor
  · intro hnone ht
    simp only [process_query_result, if_pos ht, hnone]
    rw [cacheLookup_update_self]
    rfl
  · intro pid e h
    obtain ⟨e', h1, _, h3⟩ := process_step_entry cfg now row acc pid e h
    rw [h1]
    simp [h3]

/-- C1 amended, witnessed at the counterexample's input: a first
observation at `now = 100`, elapsed 5, threshold 2 stores
`start = 98`, and a second observation of the same pid at elapsed 7
leaves it at 98. -/
theorem start_estimate_once_witness :
    (cacheLookup ([] : List (Int × CacheEntry)) 101 = none ∧ (2 : Int) ≤ 5 ∧
      (cacheLookup (process_query_result ⟨2, "inst1"⟩ 100
          ⟨101, "d", "u", "h", 5, []⟩ ([], [])).2 101).map
        CacheEntry.start = some (100 - 2)) ∧
    ∀ e, cacheLookup (process_query_result ⟨2, "inst1"⟩ 100
          ⟨101, "d", "u", "h", 5, []⟩ ([], [])).2 101 = some e →
      (cacheLookup (process_query_result ⟨2, "inst1"⟩ 110
          ⟨101, "d", "u", "h", 7, []⟩ ([101],
            (process_query_result ⟨2, "inst1"⟩ 100
              ⟨101, "d", "u", "h", 5, []⟩ ([], [])).2)).2 101).map
        CacheEntry.start = some e.start := by
  constructor
  · exact ⟨rfl, by decide,
      (start_estimate_once ⟨2, "inst1"⟩ 100 ⟨101, "d", "u", "h", 5, []⟩
        ([], [])).1 rfl (by decide)⟩
  · intro e he
    exact (start_estimate_once ⟨2, "inst1"⟩ 110 ⟨101, "d", "u", "h", 7, []⟩
      ([101], _)).2 101 e he

/-- C4: the cached peak `max_time` is monotonically non-decreasing
across the row updates of observe cycles — an update with elapsed at
or above the threshold replaces it with `max(existing, observed)`, and
no sequence of row updates ever decreases it. -/
theorem max_elapsed_monotone :
    (∀ (cfg : ScraperConfig) (now : Int) (row : ProcessRow)
        (acc : List Int × List (Int × CacheEntry)) (e : CacheEntry),
      cacheLookup acc.2 row.pid = some e → cfg.exec_time ≤ row.time →
        (cacheLookup (process_query_result cfg now row acc).2 row.pid).map
            CacheEntry.max_time = some (max e.max_time row.time)) ∧
    (∀ (cfg : ScraperConfig) (now : Int) (rows : List ProcessRow)
        (acc : List Int × List (Int × CacheEntry)) (pid : Int) (e : CacheEntry),
      cacheLookup acc.2 pid = some e →
        ∃ e', cacheLookup ((rows.foldl
              (fun a r => process_query_result cfg now r a) acc).2) pid = some e' ∧
          e.max_time ≤ e'.max_time) := by
  constructor
  · intro cfg now row acc e h ht
    simp only [process_query_result, if_pos ht, h]
    rw [cacheLookup_update_self]
    rfl
  · intro cfg now rows
    induction rows with
    | nil => intro acc pid e h; exact ⟨e, h, le_refl _⟩
    | cons r rs ih =>
      intro acc pid e h
      obtain ⟨e1, h1, h2, _⟩ := process_step_entry cfg now r acc pid e h
      obtain ⟨e', h3, h4⟩ := ih (process_query_result cfg now r acc) pid e1 h1
      exact ⟨e', h3, le_trans h2 h4⟩

/-- C4, witnessed: pid 101 observed at elapsed 5 then at elapsed 3
(threshold 2) keeps peak 5: the lower later observation does not
reduce it. -/
theorem max_elapsed_monotone_witness :
    (cacheLookup [(101, ⟨5, 98, ⟨"inst1", "d", 101, "u", "h", 5, [], 98, none⟩⟩)] 101
        = some ⟨5, 98, ⟨"inst1", "d", 101, "u", "h", 5, [], 98, none⟩⟩ ∧
      (2 : Int) ≤ 3) ∧
    ((cacheLookup (process_query_result ⟨2, "inst1"⟩ 110 ⟨101, "d", "u", "h", 3, []⟩
        ([], [(101, ⟨5, 98, ⟨"inst1", "d", 101, "u", "h", 5, [], 98, none⟩⟩)])).2
      101).map CacheEntry.max_time = some (max 5 3) ∧ max (5 : Int) 3 = 5) := by
  refine ⟨⟨rfl, by decide⟩, ?_, by decide⟩
  exact max_elapsed_monotone.1 ⟨2, "inst1"⟩ 110 ⟨101, "d", "u", "h", 3, []⟩
    ([], [(101, ⟨5, 98, ⟨"inst1", "d", 101, "u", "h", 5, [], 98, none⟩⟩)])
    ⟨5, 98, ⟨"inst1", "d", 101, "u", "h", 5, [], 98, none⟩⟩ rfl (by decide)

/-- C2: with three snapshots in which pid 101 appears at elapsed 3,
then at elapsed 5 (both at or above the threshold), then is absent,
the tracker emits exactly one finalized record for pid 101, and its
`time` field is the peak elapsed 5. -/
theorem lifecycle_finalization (cfg : ScraperConfig) (h3 : cfg.exec_time ≤ 3)
    (now1 now2 now3 : Int) (db user host : String) (info : List Char) :
    (query_cycle cfg now3 []
      (query_cycle cfg now2 [⟨101, db, user, host, 5, info⟩]
        (query_cycle cfg now1 [⟨101, db, user, host, 3, info⟩] [] []).1
        (query_cycle cfg now1 [⟨101, db, user, host, 3, info⟩] [] []).2).1
      (query_cycle cfg now2 [⟨101, db, user, host, 5, info⟩]
        (query_cycle cfg now1 [⟨101, db, user, host, 3, info⟩] [] []).1
        (query_cycle cfg now1 [⟨101, db, user, host, 3, info⟩] [] []).2).2).2
    = [⟨cfg.instance_name, db, 101, user, host, 5, cleanInfo info,
        now1 - cfg.exec_time, some now3⟩] := by
  have h5 : cfg.exec_time ≤ 5 := le_trans h3 (by norm_num)
  simp [query_cycle, process_query_result, handle_finished_queries,
    cacheLookup, cacheUpdate, insertIfNewKey, finalizeDoc, sameNaturalKey,
    h3, h5]

/-- C2, witnessed at threshold 2 and sampling instants 10, 20, 30. -/
theorem lifecycle_finalization_witness :
    (2 : Int) ≤ 3 ∧
    (query_cycle ⟨2, "inst1"⟩ 30 []
      (query_cycle ⟨2, "inst1"⟩ 20 [⟨101, "d", "u", "h", 5, []⟩]
        (query_cycle ⟨2, "inst1"⟩ 10 [⟨101, "d", "u", "h", 3, []⟩] [] []).1
        (query_cycle ⟨2, "inst1"⟩ 10 [⟨101, "d", "u", "h", 3, []⟩] [] []).2).1
      (query_cycle ⟨2, "inst1"⟩ 20 [⟨101, "d", "u", "h", 5, []⟩]
        (query_cycle ⟨2, "inst1"⟩ 10 [⟨101, "d", "u", "h", 3, []⟩] [] []).1
        (query_cycle ⟨2, "inst1"⟩ 10 [⟨101, "d", "u", "h", 3, []⟩] [] []).2).2).2
    = [⟨"inst1", "d", 101, "u", "h", 5, cleanInfo [], 10 - 2, some 30⟩] :=
  ⟨by decide,
    lifecycle_finalization ⟨2, "inst1"⟩ (by decide) 10 20 30 "d" "u" "h" []⟩

/-- C5: when finalized records are persisted by
`handle_finished_queries`, two records sharing a pid but differing in
`start` both persist as separate documents, while a record whose full
natural key `(pid, instance, db, start)` already exists in the store
is not inserted again — even if every other field differs — because
the pre-insert `find_one` filter compares exactly those four fields. -/
theorem persist_dedup_natural_key (now1 now2 : Int) (p1 p2 p3 : Int)
    (e1 e2 e3 : CacheEntry)
    (hpid : e2.details.pid = e1.details.pid)
    (hstart : e2.details.start ≠ e1.details.start)
    (hk1 : e3.details.pid = e1.details.pid)
    (hk2 : e3.details.instance_ = e1.details.instance_)
    (hk3 : e3.details.db = e1.details.db)
    (hk4 : e3.details.start = e1.details.start) :
    (handle_finished_queries now2 [] [(p2, e2)]
        (handle_finished_queries now1 [] [(p1, e1)] []).2).2
      = [finalizeDoc e1 now1, finalizeDoc e2 now2] ∧
    (handle_finished_queries now2 [] [(p3, e3)]
        (handle_finished_queries now1 [] [(p1, e1)] []).2).2
      = [finalizeDoc e1 now1] := by
  have hs : (e1.details.start == e2.details.start) = false := by
    simp [Ne.symm hstart]
  constructor
  · simp [handle_finished_queries, insertIfNewKey, finalizeDoc, sameNaturalKey,
      hpid, hs]
  · simp [handle_finished_queries, insertIfNewKey, finalizeDoc, sameNaturalKey,
      hk1, hk2, hk3, hk4]

/-- C5, witnessed: entries with pid 7 and starts 50 / 60 both persist;
an entry agreeing with the first on `(pid, instance, db, start)` but
differing in user, host, elapsed and text does not persist again. -/
theorem persist_dedup_natural_key_witness :
    ((⟨9, 60, ⟨"i", "d", 7, "u", "h", 9, [], 60, none⟩⟩ :
        CacheEntry).details.pid = 7 ∧
      (60 : Int) ≠ 50) ∧
    (handle_finished_queries 200 [] [(7, ⟨9, 60, ⟨"i", "d", 7, "u", "h", 9, [], 60, none⟩⟩)]
        (handle_finished_queries 100 [] [(7, ⟨5, 50, ⟨"i", "d", 7, "u", "h", 5, [], 50, none⟩⟩)] []).2).2
      = [finalizeDoc ⟨5, 50, ⟨"i", "d", 7, "u", "h", 5, [], 50, none⟩⟩ 100,
         finalizeDoc ⟨9, 60, ⟨"i", "d", 7, "u", "h", 9, [], 60, none⟩⟩ 200] ∧
    (handle_finished_queries 200 [] [(8, ⟨42, 50, ⟨"i", "d", 7, "u2", "h2", 42, ['x'], 50, none⟩⟩)]
        (handle_finished_queries 100 [] [(7, ⟨5, 50, ⟨"i", "d", 7, "u", "h", 5, [], 50, none⟩⟩)] []).2).2
      = [finalizeDoc ⟨5, 50, ⟨"i", "d", 7, "u", "h", 5, [], 50, none⟩⟩ 100] := by
  refine ⟨⟨rfl, by decide⟩, ?_⟩
  exact persist_dedup_natural_key 100 200 7 7 8
    ⟨5, 50, ⟨"i", "d", 7, "u", "h", 5, [], 50, none⟩⟩
    ⟨9, 60, ⟨"i", "d", 7, "u", "h", 9, [], 60, none⟩⟩
    ⟨42, 50, ⟨"i", "d", 7, "u2", "h2", 42, ['x'], 50, none⟩⟩
    rfl (by decide) rfl rfl rfl rfl

/-! ## Monthly statistics: replace-by-month -/

/-- C9 (counterexample): the claim says that *every* invocation
deletes the month's stored rows and inserts the fresh set.  But the
delete and insert are guarded by `if results:` — when the freshly
computed set is empty, a stale row for the month survives, so the
store does not hold "exactly the fresh set" (the empty set). -/
theorem monthly_stats_empty_counterexample :
    save_monthly_statistics "2025-01" []
        [⟨"db-1", "2025-01", 1, 1, 1, 1, 1, 1, 1, 0, 0, 0, 0⟩]
      = [⟨"db-1", "2025-01", 1, 1, 1, 1, 1, 1, 1, 0, 0, 0, 0⟩] ∧
    ([⟨"db-1", "2025-01", 1, 1, 1, 1, 1, 1, 1, 0, 0, 0, 0⟩] :
        List MonthlyStat) ≠ [] := by
  exact ⟨rfl, by simp⟩

/-- C9 (amended): when the freshly computed set is **non-empty** (and
its rows carry the requested month, as the `^year_month` date match
guarantees), saving deletes all previously stored rows of that month
and inserts the fresh set: afterwards the store holds exactly the
fresh set for that month, and rows of other months are untouched.
When the fresh set is empty, the store is left unchanged. -/
theorem monthly_stats_replace (ym : String) (results store : List MonthlyStat)
    (hne : results ≠ []) (hm : ∀ r ∈ results, r.month = ym) :
    (save_monthly_statistics ym results store).filter
        (fun s => s.month = ym) = results ∧
    (save_monthly_statistics ym results store).filter
        (fun s => s.month ≠ ym) = store.filter (fun s => s.month ≠ ym) := by
  have hemp : results.isEmpty = false := by
    simp [List.isEmpty_iff, hne]
  rw [save_monthly_statistics, hemp]
  simp only [Bool.false_eq_true, reduceIte, List.filter_append]
  constructor
  · have h1 : (store.filter (fun s => decide (s.month ≠ ym))).filter
        (fun s => decide (s.month = ym)) = [] := by
      rw [List.filter_eq_nil_iff]
      intro a ha
      have h := (List.mem_filter.mp ha).2
      simp at h ⊢
      exact h
    have h2 : results.filter (fun s => decide (s.month = ym)) = results := by
      rw [List.filter_eq_self]
      intro a ha
      simp [hm a ha]
    simp only [h1, h2, List.nil_append]
  · have h1 : (store.filter (fun s => decide (s.month ≠ ym))).filter
        (fun s => decide (s.month ≠ ym)) = store.filter (fun s => decide (s.month ≠ ym)) := by
      rw [List.filter_eq_self]
      intro a ha
      exact (List.mem_filter.mp ha).2
    have h2 : results.filter (fun s => decide (s.month ≠ ym)) = [] := by
      rw [List.filter_eq_nil_iff]
      intro a ha
      simp [hm a ha]
    simp only [h1, h2, List.append_nil]

/-- C9 amended, witnessed: one fresh row for 2025-01 replaces the
month's stale row and leaves a 2024-12 row alone. -/
theorem monthly_stats_replace_witness :
    (([⟨"db-1", "2025-01", 2, 2, 2, 2, 2, 2, 2, 0, 0, 0, 9⟩] :
        List MonthlyStat) ≠ [] ∧
      ∀ r ∈ ([⟨"db-1", "2025-01", 2, 2, 2, 2, 2, 2, 2, 0, 0, 0, 9⟩] :
        List MonthlyStat), r.month = "2025-01") ∧
    (save_monthly_statistics "2025-01"
        [⟨"db-1", "2025-01", 2, 2, 2, 2, 2, 2, 2, 0, 0, 0, 9⟩]
        [⟨"db-1", "2025-01", 1, 1, 1, 1, 1, 1, 1, 0, 0, 0, 0⟩,
         ⟨"db-2", "2024-12", 1, 1, 1, 1, 1, 1, 1, 0, 0, 0, 0⟩]).filter
      (fun s => s.month = "2025-01")
      = [⟨"db-1", "2025-01", 2, 2, 2, 2, 2, 2, 2, 0, 0, 0, 9⟩] := by
  refine ⟨⟨by simp, by decide⟩, ?_⟩
  exact (monthly_stats_replace "2025-01"
    [⟨"db-1", "2025-01", 2, 2, 2, 2, 2, 2, 2, 0, 0, 0, 9⟩]
    [⟨"db-1", "2025-01", 1, 1, 1, 1, 1, 1, 1, 0, 0, 0, 0⟩,
     ⟨"db-2", "2024-12", 1, 1, 1, 1, 1, 1, 1, 0, 0, 0, 0⟩]
    (by simp) (by decide)).1

/-! ## Stream isolation -/

/-- C8: a per-stream access or throttling error makes the stream
contribute only what it had already fetched — nothing when the first
call fails — and every event fetched by any other stream still appears
in the batch result; the error never aborts sibling streams. -/
theorem stream_error_isolation (bs : Nat)
    (streams : List (List (Except String LogPage))) :
    (∀ (msg : String) (rest : List (Except String LogPage))
        (tok : Option String) (acc : List RawLogEvent),
      process_stream bs (.error msg :: rest) tok acc = acc) ∧
    (∀ s ∈ streams, ∀ e ∈ process_stream bs s none [],
      e ∈ get_slow_query_logs bs streams) := by
  constructor
  · intro msg rest tok acc
    rw [process_stream]
  · intro s hs e he
    rw [get_slow_query_logs]
    rw [(List.mergeSort_perm _ _).mem_iff]
    exact List.mem_flatten.mpr
      ⟨process_stream bs s none [], List.mem_map_of_mem _ hs, he⟩

/-- C8, witnessed: of five streams the second fails on its first call;
an event of the third stream is still in the result, and the failing
stream contributes nothing. -/
theorem stream_error_isolation_witness :
    ([.ok ⟨[⟨3, ['c']⟩], some "t"⟩] ∈
        ([[.ok ⟨[⟨1, ['a']⟩], some "t"⟩],
          [.error "AccessDeniedException"],
          [.ok ⟨[⟨3, ['c']⟩], some "t"⟩],
          [.ok ⟨[⟨4, ['d']⟩], some "t"⟩],
          [.ok ⟨[⟨5, ['e']⟩], some "t"⟩]] :
          List (List (Except String LogPage))) ∧
      (⟨3, ['c']⟩ : RawLogEvent) ∈
        process_stream 10000 [.ok ⟨[⟨3, ['c']⟩], some "t"⟩] none []) ∧
    (⟨3, ['c']⟩ : RawLogEvent) ∈ get_slow_query_logs 10000
        [[.ok ⟨[⟨1, ['a']⟩], some "t"⟩],
         [.error "AccessDeniedException"],
         [.ok ⟨[⟨3, ['c']⟩], some "t"⟩],
         [.ok ⟨[⟨4, ['d']⟩], some "t"⟩],
         [.ok ⟨[⟨5, ['e']⟩], some "t"⟩]] ∧
    process_stream 10000 [.error "AccessDeniedException"] none [] = [] := by
  refine ⟨⟨by simp, by simp [process_stream]⟩, ?_, ?_⟩
  · exact (stream_error_isolation 10000
        [[.ok ⟨[⟨1, ['a']⟩], some "t"⟩],
         [.error "AccessDeniedException"],
         [.ok ⟨[⟨3, ['c']⟩], some "t"⟩],
         [.ok ⟨[⟨4, ['d']⟩], some "t"⟩],
         [.ok ⟨[⟨5, ['e']⟩], some "t"⟩]]).2
      [.ok ⟨[⟨3, ['c']⟩], some "t"⟩] (by simp)
      ⟨3, ['c']⟩ (by simp [process_stream])
  · exact (stream_error_isolation 10000
        [[.ok ⟨[⟨1, ['a']⟩], some "t"⟩],
         [.error "AccessDeniedException"],
         [.ok ⟨[⟨3, ['c']⟩], some "t"⟩],
         [.ok ⟨[⟨4, ['d']⟩], some "t"⟩],
         [.ok ⟨[⟨5, ['e']⟩], some "t"⟩]]).1 "AccessDeniedException" [] none []

/-! ## Excluded system accounts -/

theorem startsWithStr_append (sub rest : List Char) :
    startsWithStr sub (sub ++ rest) = true := by
  induction sub with
  | nil => rfl
  | cons a as ih =>
    simp only [List.cons_append, startsWithStr, beq_self_eq_true, Bool.true_and]
    exact ih

theorem containsSub_self_append (sub suf : List Char) :
    containsSub (sub ++ suf) sub = true := by
  match sub with
  | [] =>
    match suf with
    | [] => rfl
    | c :: cs => simp [containsSub, startsWithStr]
  | s :: ss =>
    rw [List.cons_append, containsSub, ← List.cons_append, startsWithStr_append]
    simp

theorem containsSub_append (sub pre suf : List Char) :
    containsSub (pre ++ sub ++ suf) sub = true := by
  induction pre with
  | nil =>
    exact containsSub_self_append sub suf
  | cons p ps ih =>
    rw [List.cons_append, List.cons_append, containsSub]
    rw [← List.cons_append, ← List.cons_append, ih]
    simp

/-- C10: every parsed event whose user contains `rdsadmin` or
`event_scheduler` as a case-insensitive substring is skipped entirely
by the aggregation — removing it from the event list does not change
the analysis at all — and the exclusion really is substring
containment: any user of the form `pre ++ "rdsadmin" ++ suf` is
excluded, not only the exact account names. -/
theorem excluded_user_contributes_nothing :
    (∀ (l1 l2 : List SlowLogEvent) (e : SlowLogEvent),
      isExcludedUser e.user = true → analyze (l1 ++ e :: l2) = analyze (l1 ++ l2)) ∧
    (∀ pre suf : List Char,
      isExcludedUser (pre ++ "rdsadmin".data ++ suf) = true) := by
  constructor
  · intro l1 l2 e he
    have hstep : ∀ st, analyzeStep st e = st := by
      intro st
      rw [analyzeStep, if_pos he]
    rw [analyze, analyze, List.foldl_append, List.foldl_append,
      List.foldl_cons, hstep]
  · intro pre suf
    rw [isExcludedUser]
    have h0 : "rdsadmin".data.map Char.toLower = "rdsadmin".data := by decide
    have h1 : lowerStr (pre ++ "rdsadmin".data ++ suf)
        = lowerStr pre ++ "rdsadmin".data ++ lowerStr suf := by
      simp only [lowerStr, List.map_append, h0]
    rw [h1, containsSub_append]
    simp

/-- C10, witnessed on the single-conjunct with a hypothesis: the user
`App_RdsAdmin7` merely contains the excluded account name, yet its
event is dropped: analysing a log with it equals analysing the log
without it. -/
theorem excluded_user_contributes_nothing_witness :
    isExcludedUser "App_RdsAdmin7".data = true ∧
    analyze ([] ++ ⟨"App_RdsAdmin7".data, "h".data, 1, 0, 0, 0, 5, "Q".data⟩ ::
        [⟨"app".data, "h".data, 1, 0, 0, 0, 6, "Q".data⟩])
      = analyze ([] ++ [⟨"app".data, "h".data, 1, 0, 0, 0, 6, "Q".data⟩]) := by
  refine ⟨by decide, ?_⟩
  exact excluded_user_contributes_nothing.1 []
    [⟨"app".data, "h".data, 1, 0, 0, 0, 6, "Q".data⟩]
    ⟨"App_RdsAdmin7".data, "h".data, 1, 0, 0, 0, 5, "Q".data⟩ (by decide)

/-! ## Bounded example sets -/

theorem insertSorted_perm (x : List Char) :
    ∀ l : List (List Char), List.Perm (insertSorted x l) (x :: l) := by
  intro l
  induction l with
  | nil => exact List.Perm.refl _
  | cons y ys ih =>
    rw [insertSorted]
    by_cases hle : charListLe x y
    · rw [if_pos hle]
    · rw [if_neg hle]
      exact (List.Perm.cons y ih).trans (List.Perm.swap x y ys)

theorem setInsert_length (x : List Char) (l : List (List Char)) :
    (setInsert x l).length ≤ l.length + 1 := by
  rw [setInsert]
  by_cases hm : x ∈ l
  · rw [if_pos hm]
    omega
  · rw [if_neg hm, (insertSorted_perm x l).length_eq]
    simp

theorem setInsert_nodup (x : List Char) (l : List (List Char)) (h : l.Nodup) :
    (setInsert x l).Nodup := by
  rw [setInsert]
  by_cases hm : x ∈ l
  · rw [if_pos hm]
    exact h
  · rw [if_neg hm, (insertSorted_perm x l).nodup_iff]
    exact List.nodup_cons.mpr ⟨hm, h⟩

theorem addExample_invariant (l : List (List Char)) (q : List Char)
    (h : l.Nodup ∧ l.length ≤ 10) :
    (addExample l q).Nodup ∧ (addExample l q).length ≤ 10 := by
  rw [addExample]
  by_cases hlen : l.length < 10
  · rw [if_pos hlen]
    refine ⟨setInsert_nodup _ _ h.1, ?_⟩
    have := setInsert_length (stripChars q) l
    omega
  · rw [if_neg hlen]
    exact h

theorem alistUpdate_mem {κ ν : Type} [BEq κ] (k : κ) (v : ν) :
    ∀ (d : List (κ × ν)) (kv : κ × ν), kv ∈ alistUpdate k v d →
      kv.2 = v ∨ kv ∈ d := by
  intro d
  induction d with
  | nil =>
    intro kv h
    simp [alistUpdate] at h
    subst h
    exact Or.inl rfl
  | cons kv0 rest ih =>
    intro kv h
    obtain ⟨k0, v0⟩ := kv0
    rw [alistUpdate] at h
    by_cases hk : (k0 == k) = true
    · rw [if_pos hk] at h
      rcases List.mem_cons.mp h with h1 | h1
      · subst h1
        exact Or.inl rfl
      · exact Or.inr (List.mem_cons_of_mem _ h1)
    · rw [if_neg hk] at h
      rcases List.mem_cons.mp h with h1 | h1
      · subst h1
        exact Or.inr (List.mem_cons_self _ _)
      · rcases ih kv h1 with h2 | h2
        · exact Or.inl h2
        · exact Or.inr (List.mem_cons_of_mem _ h2)

theorem alistLookup_mem {κ ν : Type} [BEq κ] (d : List (κ × ν)) (k : κ)
    (v : ν) (h : alistLookup d k = some v) : ∃ kv ∈ d, kv.2 = v := by
  rw [alistLookup] at h
  rcases hf : d.find? (fun e => e.1 == k) with _ | kv0
  · rw [hf] at h
    cases h
  · rw [hf] at h
    simp only [Option.map] at h
    exact ⟨kv0, List.mem_of_find?_eq_some hf, Option.some.inj h⟩

theorem analyzeStep_example_invariant (st : List (List Char × QueryStats))
    (e : SlowLogEvent)
    (hst : ∀ kv ∈ st, kv.2.example_queries.Nodup ∧ kv.2.example_queries.length ≤ 10) :
    ∀ kv ∈ analyzeStep st e,
      kv.2.example_queries.Nodup ∧ kv.2.example_queries.length ≤ 10 := by
  intro kv hkv
  rw [analyzeStep] at hkv
  by_cases he : isExcludedUser e.user = true
  · rw [if_pos he] at hkv
    exact hst kv hkv
  · rw [if_neg he] at hkv
    simp only at hkv
    rcases alistUpdate_mem _ _ _ _ hkv with h1 | h1
    · rw [h1]
      apply addExample_invariant
      rcases hl : alistLookup st (normalizeQuery e.query) with _ | base
      · simp [hl, emptyStats]
      · obtain ⟨kv0, hmem, hv⟩ := alistLookup_mem _ _ _ hl
        simp only [hl, Option.getD_some]
        rw [← hv]
        exact hst kv0 hmem
    · exact hst kv h1

/-- C7 (amended): for every digest produced by the aggregation,
`example_queries` holds at most 10 pairwise-distinct (stripped) raw
query bodies; since the source keeps them in a Python `set`, their
order in the emitted list is the set's unspecified iteration order,
not first-seen order. -/
theorem example_queries_bounded (logs : List SlowLogEvent) (r : DigestRecord)
    (hr : r ∈ analyze logs) :
    r.example_queries.Nodup ∧ r.example_queries.length ≤ 10 := by
  have hfold : ∀ kv ∈ logs.foldl analyzeStep [],
      kv.2.example_queries.Nodup ∧ kv.2.example_queries.length ≤ 10 := by
    have hgen : ∀ (ls : List SlowLogEvent) (st : List (List Char × QueryStats)),
        (∀ kv ∈ st, kv.2.example_queries.Nodup ∧ kv.2.example_queries.length ≤ 10) →
        ∀ kv ∈ ls.foldl analyzeStep st,
          kv.2.example_queries.Nodup ∧ kv.2.example_queries.length ≤ 10 := by
      intro ls
      induction ls with
      | nil => intro st hst; exact hst
      | cons e rest ih =>
        intro st hst
        rw [List.foldl_cons]
        exact ih _ (analyzeStep_example_invariant st e hst)
    exact hgen logs [] (by intro kv h; cases h)
  rw [analyze, (List.mergeSort_perm _ _).mem_iff] at hr
  obtain ⟨kv, hkv, hrec⟩ := List.mem_map.mp hr
  have := hfold kv hkv
  rw [← hrec]
  exact ⟨this.1, this.2⟩

/-- C7 amended, witnessed on one event. -/
theorem example_queries_bounded_witness :
    (analyze [⟨"u".data, "h".data, 1, 0, 0, 0, 5, "Q 7".data⟩]).length = 1 ∧
    ∀ r ∈ analyze [⟨"u".data, "h".data, 1, 0, 0, 0, 5, "Q 7".data⟩],
      r.example_queries.Nodup ∧ r.example_queries.length ≤ 10 := by
  constructor
  · rw [analyze, (List.mergeSort_perm _ _).length_eq]
    simp +decide [analyzeStep, isExcludedUser, containsSub, startsWithStr,
      lowerStr, alistUpdate, alistLookup]
  · intro r hr
    exact example_queries_bounded _ r hr

/-- C7 (counterexample to first-seen order): the source keeps
`example_queries` in a Python `set`, whose `list(...)` enumeration is
hash-dependent, not insertion-ordered — modelled canonically as the
sorted enumeration.  Feeding bodies `q 2` then `q 1` (same digest
`q ?`) yields `["q 1", "q 2"]`, not the first-seen order
`["q 2", "q 1"]`. -/
theorem example_order_counterexample :
    (analyze [⟨"u".data, "h".data, 1, 0, 0, 0, 5, "q 2".data⟩,
              ⟨"u".data, "h".data, 1, 0, 0, 0, 6, "q 1".data⟩]).map
        DigestRecord.example_queries
      = [["q 1".data, "q 2".data]] ∧
    (["q 1".data, "q 2".data] : List (List Char))
      ≠ ["q 2".data, "q 1".data] := by
  constructor
  · simp +decide [analyze, analyzeStep, statsToRecord, isExcludedUser,
      containsSub, startsWithStr, lowerStr, alistLookup, alistUpdate,
      emptyStats, addExample, setInsert, insertSorted, charListLe, stripChars,
      normalizeQuery, subNum, collapse, subQuote_nil, subQuote_eval, afterClose,
      subNumAux_nil, subNumAux_eval, collapseAux_nil, collapseAux_eval,
      List.dropWhile_nil, List.dropWhile_cons, List.takeWhile_nil,
      List.takeWhile_cons, isWsChar, isWordChar, String.data, List.mergeSort]
  · decide

/-! ## Digest persistence: upsert semantics -/

theorem findKey_upsertOne_self (doc : CWDocument) :
    ∀ store : List CWDocument,
      findKey (upsertOne store doc) (cwKey doc) = some doc := by
  intro store
  induction store with
  | nil => simp [upsertOne, findKey, List.find?_cons]
  | cons d rest ih =>
    by_cases hk : cwKey d = cwKey doc
    · rw [upsertOne, if_pos hk]
      simp [findKey, List.find?_cons]
    · rw [upsertOne, if_neg hk]
      rw [findKey, List.find?_cons]
      have : (cwKey d == cwKey doc) = false := by simp [hk]
      rw [this]
      exact ih

theorem findKey_upsertOne_ne (doc : CWDocument)
    (k : String × String × List Char) (hne : k ≠ cwKey doc) :
    ∀ store : List CWDocument,
      findKey (upsertOne store doc) k = findKey store k := by
  intro store
  induction store with
  | nil =>
    have : (cwKey doc == k) = false := by simp; exact fun h => hne h.symm
    simp [upsertOne, findKey, List.find?_cons, this]
  | cons d rest ih =>
    by_cases hk : cwKey d = cwKey doc
    · rw [upsertOne, if_pos hk]
      rw [findKey, List.find?_cons, findKey, List.find?_cons]
      have h1 : (cwKey doc == k) = false := by simp; exact fun h => hne h.symm
      have h2 : (cwKey d == k) = false := by
        simp [hk]; exact fun h => hne h.symm
      rw [h1, h2]
    · rw [upsertOne, if_neg hk]
      rw [findKey, List.find?_cons, findKey, List.find?_cons]
      by_cases hd : (cwKey d == k) = true
      · rw [hd]
      · have : (cwKey d == k) = false := by simp at hd ⊢; exact hd
        rw [this]
        exact ih

theorem countKey_upsertOne_ne (doc : CWDocument)
    (k : String × String × List Char) (hne : k ≠ cwKey doc) :
    ∀ store : List CWDocument,
      countKey (upsertOne store doc) k = countKey store k := by
  intro store
  induction store with
  | nil =>
    have : (cwKey doc == k) = false := by simp; exact fun h => hne h.symm
    simp [upsertOne, countKey, List.countP_cons, this]
  | cons d rest ih =>
    simp only [countKey] at ih ⊢
    by_cases hk : cwKey d = cwKey doc
    · rw [upsertOne, if_pos hk]
      rw [List.countP_cons, List.countP_cons]
      have h1 : (cwKey doc == k) = false := by simp; exact fun h => hne h.symm
      have h2 : (cwKey d == k) = false := by
        simp [hk]; exact fun h => hne h.symm
      rw [h1, h2]
    · rw [upsertOne, if_neg hk]
      rw [List.countP_cons, List.countP_cons, ih]

theorem countKey_upsertOne_self (doc : CWDocument) :
    ∀ store : List CWDocument, countKey store (cwKey doc) ≤ 1 →
      countKey (upsertOne store doc) (cwKey doc) = 1 := by
  intro store
  induction store with
  | nil =>
    intro _
    simp [upsertOne, countKey, List.countP_cons]
  | cons d rest ih =>
    intro hle
    simp only [countKey] at ih hle ⊢
    rw [List.countP_cons] at hle
    by_cases hk : cwKey d = cwKey doc
    · rw [upsertOne, if_pos hk]
      rw [List.countP_cons]
      have h1 : (cwKey d == cwKey doc) = true := by simp [hk]
      rw [h1] at hle
      simp only [reduceIte] at hle
      have h0 : rest.countP (fun d => cwKey d == cwKey doc) = 0 := by omega
      simp [h0]
    · rw [upsertOne, if_neg hk]
      rw [List.countP_cons]
      have h1 : (cwKey d == cwKey doc) = false := by simp [hk]
      rw [h1] at hle ⊢
      rw [ih (by omega)]
      simp

theorem countKey_upsertOne_le (doc : CWDocument) (store : List CWDocument)
    (k : String × String × List Char) (hle : countKey store k ≤ 1) :
    countKey (upsertOne store doc) k ≤ 1 := by
  by_cases hk : k = cwKey doc
  · subst hk
    rw [countKey_upsertOne_self doc store hle]
  · rw [countKey_upsertOne_ne doc k hk]
    exact hle

theorem wf_foldl_upsertOne :
    ∀ (docs : List CWDocument) (store : List CWDocument),
      (∀ k, countKey store k ≤ 1) →
      ∀ k, countKey (docs.foldl upsertOne store) k ≤ 1 := by
  intro docs
  induction docs with
  | nil => intro store h; exact h
  | cons d rest ih =>
    intro store h
    rw [List.foldl_cons]
    exact ih (upsertOne store d) (fun k => countKey_upsertOne_le d store k (h k))

theorem findKey_foldl_not_mem :
    ∀ (docs : List CWDocument) (store : List CWDocument)
      (k : String × String × List Char), k ∉ docs.map cwKey →
      findKey (docs.foldl upsertOne store) k = findKey store k := by
  intro docs
  induction docs with
  | nil => intro store k _; rfl
  | cons d rest ih =>
    intro store k hk
    rw [List.map_cons] at hk
    have h1 : k ≠ cwKey d := fun h => hk (by rw [h]; exact List.mem_cons_self _ _)
    have h2 : k ∉ rest.map cwKey := fun h => hk (List.mem_cons_of_mem _ h)
    rw [List.foldl_cons, ih (upsertOne store d) k h2,
      findKey_upsertOne_ne d k h1]

theorem countKey_foldl_not_mem :
    ∀ (docs : List CWDocument) (store : List CWDocument)
      (k : String × String × List Char), k ∉ docs.map cwKey →
      countKey (docs.foldl upsertOne store) k = countKey store k := by
  intro docs
  induction docs with
  | nil => intro store k _; rfl
  | cons d rest ih =>
    intro store k hk
    rw [List.map_cons] at hk
    have h1 : k ≠ cwKey d := fun h => hk (by rw [h]; exact List.mem_cons_self _ _)
    have h2 : k ∉ rest.map cwKey := fun h => hk (List.mem_cons_of_mem _ h)
    rw [List.foldl_cons, ih (upsertOne store d) k h2,
      countKey_upsertOne_ne d k h1]

theorem findKey_foldl_mem :
    ∀ (docs : List CWDocument) (store : List CWDocument),
      (docs.map cwKey).Nodup → ∀ doc ∈ docs,
        findKey (docs.foldl upsertOne store) (cwKey doc) = some doc := by
  intro docs
  induction docs with
  | nil => intro store _ doc h; cases h
  | cons d rest ih =>
    intro store hnodup doc hdoc
    rw [List.map_cons, List.nodup_cons] at hnodup
    rw [List.foldl_cons]
    rcases List.mem_cons.mp hdoc with h1 | h1
    · subst h1
      rw [findKey_foldl_not_mem rest (upsertOne store doc) (cwKey doc) hnodup.1]
      exact findKey_upsertOne_self doc store
    · exact ih (upsertOne store d) hnodup.2 doc h1

theorem countKey_foldl_mem :
    ∀ (docs : List CWDocument) (store : List CWDocument),
      (∀ k, countKey store k ≤ 1) →
      ∀ k ∈ docs.map cwKey, countKey (docs.foldl upsertOne store) k = 1 := by
  intro docs
  induction docs with
  | nil => intro store _ k h; cases h
  | cons d rest ih =>
    intro store hwf k hk
    rw [List.foldl_cons]
    have hwf2 : ∀ k, countKey (upsertOne store d) k ≤ 1 :=
      fun k2 => countKey_upsertOne_le d store k2 (hwf k2)
    by_cases hmem : k ∈ rest.map cwKey
    · exact ih (upsertOne store d) hwf2 k hmem
    · rw [List.map_cons] at hk
      rcases List.mem_cons.mp hk with h1 | h1
    -- k is d's key and occurs in no later write
      · subst h1
        rw [countKey_foldl_not_mem rest (upsertOne store d) (cwKey d) hmem]
        exact countKey_upsertOne_self d store (hwf (cwKey d))
      · exact absurd h1 hmem

theorem cwDocsOf_map_cwKey (data : List (String × List DigestRecord))
    (date : String) (t : Int) :
    (cwDocsOf data date t).map cwKey
      = data.flatMap (fun iq => iq.2.map (fun q => (date, iq.1, q.digest_query))) := by
  rw [cwDocsOf, List.map_flatMap]
  congr 1
  funext iq
  rw [List.map_map]
  rfl

/-- C6: persisting the digest documents is idempotent.  Starting from
a store with at most one document per `(date, instance_id,
digest_query)` key, saving the same aggregation output twice leaves
exactly one document per key, and that document carries the second
run's values (its `created_at` is the second run's instant): each save
is an upsert that overwrites by the key, never a second document or a
sum. -/
theorem digest_save_idempotent (store : List CWDocument)
    (data : List (String × List DigestRecord)) (date : String) (t1 t2 : Int)
    (hwf : ∀ k, countKey store k ≤ 1)
    (hnodup : ((cwDocsOf data date t2).map cwKey).Nodup) :
    ∀ (iid : String) (qs : List DigestRecord) (q : DigestRecord),
      (iid, qs) ∈ data → q ∈ qs →
      countKey (save_metrics data date t2 (save_metrics data date t1 store))
          (date, iid, q.digest_query) = 1 ∧
      findKey (save_metrics data date t2 (save_metrics data date t1 store))
          (date, iid, q.digest_query)
        = some (mkCWDocument date iid t2 q) := by
  intro iid qs q hdata hq
  have hdoc : mkCWDocument date iid t2 q ∈ cwDocsOf data date t2 := by
    rw [cwDocsOf]
    exact List.mem_flatMap.mpr ⟨(iid, qs), hdata, List.mem_map_of_mem _ hq⟩
  have hkey : cwKey (mkCWDocument date iid t2 q) = (date, iid, q.digest_query) := rfl
  have hwf1 : ∀ k, countKey (save_metrics data date t1 store) k ≤ 1 := by
    rw [save_metrics]
    exact wf_foldl_upsertOne _ store hwf
  constructor
  · rw [save_metrics]
    refine countKey_foldl_mem _ _ hwf1 _ ?_
    rw [← hkey]
    exact List.mem_map_of_mem _ hdoc
  · rw [save_metrics, ← hkey]
    exact findKey_foldl_mem _ _ hnodup _ hdoc

/-- C6, witnessed: one instance with one digest saved twice (created
instants 100 and 200) over an empty store leaves exactly one document,
the second run's. -/
theorem digest_save_idempotent_witness :
    ((∀ k, countKey [] k ≤ 1) ∧
      ((cwDocsOf [("i", [⟨"d".data, [], 1, 1, 1, 1, 1, 1, [], [], none, none⟩])]
          "2025-01" 200).map cwKey).Nodup ∧
      ("i", [⟨"d".data, [], 1, 1, 1, 1, 1, 1, [], [], none, none⟩]) ∈
        [("i", [(⟨"d".data, [], 1, 1, 1, 1, 1, 1, [], [], none, none⟩ : DigestRecord)])] ∧
      (⟨"d".data, [], 1, 1, 1, 1, 1, 1, [], [], none, none⟩ : DigestRecord) ∈
        [(⟨"d".data, [], 1, 1, 1, 1, 1, 1, [], [], none, none⟩ : DigestRecord)]) ∧
    countKey (save_metrics [("i", [⟨"d".data, [], 1, 1, 1, 1, 1, 1, [], [], none, none⟩])]
        "2025-01" 200
        (save_metrics [("i", [⟨"d".data, [], 1, 1, 1, 1, 1, 1, [], [], none, none⟩])]
          "2025-01" 100 []))
      ("2025-01", "i", "d".data) = 1 ∧
    findKey (save_metrics [("i", [⟨"d".data, [], 1, 1, 1, 1, 1, 1, [], [], none, none⟩])]
        "2025-01" 200
        (save_metrics [("i", [⟨"d".data, [], 1, 1, 1, 1, 1, 1, [], [], none, none⟩])]
          "2025-01" 100 []))
      ("2025-01", "i", "d".data)
      = some (mkCWDocument "2025-01" "i" 200
          ⟨"d".data, [], 1, 1, 1, 1, 1, 1, [], [], none, none⟩) := by
  have h := digest_save_idempotent []
    [("i", [⟨"d".data, [], 1, 1, 1, 1, 1, 1, [], [], none, none⟩])] "2025-01"
    100 200 (fun k => by simp [countKey])
    (by simp [cwDocsOf, cwKey, mkCWDocument])
    "i" [⟨"d".data, [], 1, 1, 1, 1, 1, 1, [], [], none, none⟩]
    ⟨"d".data, [], 1, 1, 1, 1, 1, 1, [], [], none, none⟩
    (List.mem_singleton.mpr rfl) (List.mem_singleton.mpr rfl)
  exact ⟨⟨fun k => by simp [countKey],
    by simp [cwDocsOf, cwKey, mkCWDocument],
    List.mem_singleton.mpr rfl, List.mem_singleton.mpr rfl⟩, h.1, h.2⟩

end SlowQueryScraper
